import Mathlib

/-!
Shallow embedding of the client-side markdown renderer of the go-wiki
repository (src/public/js/markdown.js, evolved version: `RenderModes`,
`textFormatRules`, `externalContentRules`, `markdownRules`, `listRules`,
`escapeHtml`, `parseMarkdownElements`, `renderMarkdownElement`).

Strings are modelled as `List Char`.  Each JavaScript regular-expression
rule is translated into an explicit matcher that reproduces the
leftmost-match, greedy/lazy and backtracking behaviour of the concrete
pattern, and global `String.prototype.replace` is modelled by a fuelled
left-to-right scan (`scanRepl`).  The stateful `lastIndex` behaviour of
`RegExp.prototype.test` on `g`-flagged regexes is modelled explicitly in
`jsTestFence` / `jsTestList`.
-/

/-- JavaScript `\s` on the ASCII range (space, tab, newline, carriage
return, vertical tab, form feed); also the character set used by
`String.prototype.trim`. -/
def isWs (c : Char) : Bool :=
  c = ' ' || c = '\t' || c = '\n' || c = '\r' || c = '\x0b' || c = '\x0c'

/-- Character class `[ \t\r\S]` used by every text-format rule: space, tab,
carriage return or any non-whitespace character.  It excludes `\n`. -/
def isFmtCl (c : Char) : Bool :=
  c = ' ' || c = '\t' || c = '\r' || !isWs c

/-- JavaScript `String.prototype.trim` restricted to ASCII whitespace. -/
def jsTrim (s : List Char) : List Char :=
  ((s.dropWhile isWs).reverse.dropWhile isWs).reverse

/-- Global replacement of the single character `x` by the string `r`,
modelling `.replace(/x/g, r)` for a one-character pattern. -/
def replCh (x : Char) (r : List Char) : List Char → List Char
  | [] => []
  | c :: t => if c = x then r ++ replCh x r t else c :: replCh x r t

/-- Decimal digit character for `d < 10`. -/
def digitCh (d : Nat) : Char := Char.ofNat (48 + d)

/-- Decimal digits of `n`, most significant first (fuelled division). -/
def decDigitsAux : Nat → Nat → List Char
  | 0, _ => []
  | f + 1, n =>
    if n < 10 then [digitCh n]
    else decDigitsAux f (n / 10) ++ [digitCh (n % 10)]

/-- Decimal representation of `n`, as produced by JavaScript template
interpolation of a number. -/
def decDigits (n : Nat) : List Char := decDigitsAux (n + 1) n

/-- The final pass of `escapeHtml`:
`.replace(/\\[^\n]/g, (match) => "&#" + match.charCodeAt(1) + ";")`.
A backslash followed by a non-newline character becomes the numeric
character reference of that character. -/
def replBsl : List Char → List Char
  | [] => []
  | [c] => [c]
  | c₁ :: c₂ :: t =>
    if c₁ = '\\' && c₂ ≠ '\n' then
      ('&' :: '#' :: decDigits c₂.toNat) ++ ';' :: replBsl t
    else
      c₁ :: replBsl (c₂ :: t)

/-- The `escapeHtml` function of markdown.js: the five named-reference
replacements in source order (ampersand first), then the backslash pass. -/
def escapeHtml (s : List Char) : List Char :=
  replBsl (replCh '\'' "&#039;".data (replCh '"' "&quot;".data
    (replCh '>' "&gt;".data (replCh '<' "&lt;".data (replCh '&' "&amp;".data s)))))

/-- Boolean string-prefix test. -/
def startsW : List Char → List Char → Bool
  | [], _ => true
  | _ :: _, [] => false
  | p :: ps, c :: cs => p = c && startsW ps cs

/-- Boolean substring test (used to state claims about rendered output). -/
def containsSeq (pat : List Char) : List Char → Bool
  | [] => startsW pat []
  | c :: t => startsW pat (c :: t) || containsSeq pat t

/-- A matcher receives the at-line-start flag (JavaScript `^` with the `m`
flag matches at position 0 or right after `\n`/`\r`) and the current
suffix; on success it yields the emitted replacement, the rest of the
input after the match, and the at-line-start flag after the match. -/
abbrev Matcher := Bool → List Char → Option (List Char × List Char × Bool)

/-- Fuelled left-to-right scan modelling a global `String.prototype.replace`:
at each position the matcher is tried; on success its replacement is
emitted and the scan resumes after the match, otherwise one character is
copied.  Replacement text is never rescanned. -/
def scanRepl (m : Matcher) : Nat → Bool → List Char → List Char
  | 0, _, s => s
  | _ + 1, _, [] => []
  | f + 1, ls, c :: t =>
    match m ls (c :: t) with
    | some (emit, rest, ls₂) => emit ++ scanRepl m f ls₂ rest
    | none => c :: scanRepl m f (c = '\n' || c = '\r') t

/-- One global replace pass over `s` (fuel `s.length` suffices because every
match consumes at least one character). -/
def runRule (m : Matcher) (s : List Char) : List Char :=
  scanRepl m s.length true s

/-- At-line-start flag after consuming a (non-empty) piece of text. -/
def lsAfter (consumed : List Char) : Bool :=
  match consumed.getLast? with
  | some c => c = '\n' || c = '\r'
  | none => false

/-- Matcher for a `\s+([^\n]+)` tail (shared by the header rules and the
list-item rule).  `\s+` is greedy and may span newlines; `[^\n]+` then
needs at least one non-newline character, backtracking into the
whitespace run if necessary.  Returns `(consumed, capture, rest)` with
`consumed = whitespace-part ++ capture`. -/
def spcContent (s : List Char) : Option (List Char × List Char × List Char) :=
  let w := s.takeWhile isWs
  let r := s.dropWhile isWs
  if w.isEmpty then none
  else
    match r with
    | _ :: _ =>
      -- the whole whitespace run serves `\s+`; `[^\n]+` starts at the
      -- first non-whitespace character and runs to the end of its line
      let cap := r.takeWhile (fun c => c ≠ '\n')
      some (w ++ cap, cap, r.dropWhile (fun c => c ≠ '\n'))
    | [] =>
      -- the string ends inside the whitespace run: `[^\n]+` must take the
      -- last non-newline whitespace character, `\s+` what precedes it
      let k := (w.reverse.takeWhile (fun c => c = '\n')).length
      if w.length - k ≥ 2 then
        some (w.take (w.length - k), [w.get? (w.length - k - 1) |>.getD ' '],
          w.drop (w.length - k))
      else none

/-- Matcher for the header rule `/^#{n}\s+([^\n]+)/gm` with replacement
`<hn>$1</hn>`.  Anchored at line start; requires exactly `n` leading `#`
characters followed immediately by whitespace. -/
def headerM (n : Nat) : Matcher := fun ls s =>
  if !ls then none
  else if !startsW (List.replicate n '#') s then none
  else
    match spcContent (s.drop n) with
    | some (consumed, cap, rest) =>
      some ("<h".data ++ decDigits n ++ '>' :: cap ++ "</h".data ++ decDigits n ++ ['>'],
        rest, lsAfter (List.replicate n '#' ++ consumed))
    | none => none

/-- The thematic-break rule `/^---\n/g` with replacement `<hr>`.  The
pattern lacks the `m` flag, so `^` matches only at position 0 of the
string and the rule can fire at most once, on a leading `---` line. -/
def hrRepl (s : List Char) : List Char :=
  if startsW "---\n".data s then "<hr>".data ++ s.drop 4 else s

/-- Matcher for the image rule `/\!\[([^)]*)\]\(([^)]+)\)/g` with
replacement `<img alt="$1" src="$2">`.  After `![`, the greedy `[^)]*`
runs to the first `)`; backtracking then looks for the rightmost `](`
split inside that run leaving a non-empty `$2`. -/
def imgM : Matcher := fun _ s =>
  match s with
  | c₁ :: c₂ :: r =>
    if c₁ = '!' && c₂ = '[' then
      let run := r.takeWhile (fun c => c ≠ ')')
      match r.dropWhile (fun c => c ≠ ')') with
      | _ :: rest =>
        -- the dropped head is the first `)`; now find the largest k with
        -- run[k] = `]`, run[k+1] = `(` and k+2 < run.length
        let cand := ((List.range run.length).reverse).find? (fun k =>
          run.get? k = some ']' && run.get? (k+1) = some '(' && k + 2 < run.length)
        match cand with
        | some k =>
          some ("<img alt=\"".data ++ run.take k ++ "\" src=\"".data ++
            run.drop (k+2) ++ "\">".data, rest, false)
        | none => none
      | [] => none
    else none
  | _ => none

/-- Matcher for the link rule `/\[([^\]]+)\]\(([^)]+)\)/g` with replacement
`<a href="$2" style="text-decoration: none;">$1</a>`. -/
def linkM : Matcher := fun _ s =>
  match s with
  | c₀ :: r =>
    if c₀ = '[' then
      let t := r.takeWhile (fun c => c ≠ ']')
      if t.isEmpty then none
      else
        -- the head of the dropWhile result is the first `]`
        match r.dropWhile (fun c => c ≠ ']') with
        | _ :: c₂ :: r₂ =>
          if c₂ = '(' then
            let u := r₂.takeWhile (fun c => c ≠ ')')
            if u.isEmpty then none
            else
              match r₂.dropWhile (fun c => c ≠ ')') with
              | _ :: rest =>
                some ("<a href=\"".data ++ u ++
                  "\" style=\"text-decoration: none;\">".data ++ t ++ "</a>".data,
                  rest, false)
              | [] => none
          else none
        | _ => none
    else none
  | _ => none

/-- Length of `l` with trailing whitespace removed. -/
def rstripLen (l : List Char) : Nat := (l.reverse.dropWhile isWs).length

/-- Matcher for the paragraph rule `/([^\n]+[\S]+)\n?/g` with replacement
`<p>$1</p>`.  On the current line the combined `[^\n]+[\S]+` matches the
prefix up to the last non-whitespace character, provided that prefix has
at least two characters; the optional `\n` is consumed exactly when the
match reaches the end of the line. -/
def paraM : Matcher := fun _ s =>
  let line := s.takeWhile (fun c => c ≠ '\n')
  let t := rstripLen line
  if t ≥ 2 then
    if t = line.length then
      match s.drop t with
      | '\n' :: r => some ("<p>".data ++ line.take t ++ "</p>".data, r, true)
      | r => some ("<p>".data ++ line.take t ++ "</p>".data, r, false)
    else
      some ("<p>".data ++ line.take t ++ "</p>".data, s.drop t, false)
  else none

/-- Matcher for the paragraph-unwrap rule `/<p>(<[^\n]+>)\n?<\/p>/g` with
replacement `$1`: a paragraph whose entire single-line content is itself
a tagged fragment loses the enclosing paragraph tag.  Backtracking picks
the largest content end `>` such that `</p>` (optionally preceded by a
newline) follows. -/
def unwrapM : Matcher := fun _ s =>
  if !startsW "<p><".data s then none
  else
    let r := s.drop 3
    let run := r.takeWhile (fun c => c ≠ '\n')
    let cand := ((List.range run.length).reverse).find? (fun j =>
      j ≥ 2 && run.get? j = some '>' &&
        (startsW "</p>".data (r.drop (j+1)) ||
          (r.get? (j+1) = some '\n' && startsW "</p>".data (r.drop (j+2)))))
    match cand with
    | some j =>
      let cap := run.take (j+1)
      if startsW "</p>".data (r.drop (j+1)) then
        some (cap, r.drop (j+5), false)
      else
        some (cap, r.drop (j+6), false)
    | none => none

/-- Matcher for a text-format rule `/d([ \t\r\S]+)d/g` with delimiter `d`
(`***`, `**`, `*`, a backtick, `__` or `~~`) and replacement
`tagO ++ $1 ++ tagC`.  The greedy class run backtracks to the rightmost
position where the closing delimiter fits, so the match spans from the
first delimiter to the last. -/
def fmtM (d tagO tagC : List Char) : Matcher := fun _ s =>
  if !startsW d s then none
  else
    let r := s.drop d.length
    let run := r.takeWhile isFmtCl
    let cand := ((List.range (run.length + 1)).reverse).find? (fun k =>
      k ≥ 1 && k + d.length ≤ run.length && startsW d (run.drop k))
    match cand with
    | some k =>
      some (tagO ++ run.take k ++ tagC, r.drop (k + d.length), false)
    | none => none

/-- Split a string at the first occurrence of three consecutive backticks,
returning the part before and the part after. -/
def findTriple : List Char → Option (List Char × List Char)
  | [] => none
  | c :: t =>
    if startsW "```".data (c :: t) then some ([], (c :: t).drop 3)
    else (findTriple t).map (fun p => (c :: p.1, p.2))

/-- Match `\r?\n` at the start of the string: the optional carriage
return is taken greedily.  Returns `(consumed, rest)`. -/
def nlSplit : List Char → Option (List Char × List Char)
  | [] => none
  | [c] => if c = '\n' then some (['\n'], []) else none
  | c :: c₂ :: t =>
    if c = '\n' then some (['\n'], c₂ :: t)
    else if c = '\r' && c₂ = '\n' then some (['\r', '\n'], t)
    else none

/-- Match the fenced-code pattern ```` ```[\S]*\r?\n[\s\S]*?``` ```` at the
start of `s`.  Returns `(whole match, interior capture incl. the line
break, rest)` where the interior capture is what the Block-mode rule
`/```[\S]*(\r?\n[\s\S]*?)```/gm` keeps. -/
def fenceMatchAt (s : List Char) : Option (List Char × List Char × List Char) :=
  if startsW "```".data s then
    let r := s.drop 3
    let lang := r.takeWhile (fun c => !isWs c)
    match nlSplit (r.dropWhile (fun c => !isWs c)) with
    | some (nl, body) =>
      match findTriple body with
      | some (inner, rest) =>
        some ("```".data ++ lang ++ nl ++ inner ++ "```".data, nl ++ inner, rest)
      | none => none
    | none => none
  else none

/-- Matcher for the Block-mode rule `/```[\S]*(\r?\n[\s\S]*?)```/gm` with
replacement `<pre>$1</pre>`. -/
def fenceBlockM : Matcher := fun _ s =>
  match fenceMatchAt s with
  | some (whole, inner, rest) => some ("<pre>".data ++ inner ++ "</pre>".data, rest,
      lsAfter whole)
  | none => none

/-- First fenced-code match anywhere in `s`: `(prefix, match, rest)`. -/
def findFence : List Char → Option (List Char × List Char × List Char)
  | [] => none
  | c :: t =>
    match fenceMatchAt (c :: t) with
    | some (whole, _, rest) => some ([], whole, rest)
    | none => (findFence t).map (fun p => (c :: p.1, p.2.1, p.2.2))

/-- Capturing split on the fenced-code pattern, modelling
`text.split(/(```[\S]*\r?\n[\s\S]*?```)/gm)`: because the capture spans
the whole match, the output alternates remainders and matches. -/
def splitByFence : Nat → List Char → List (List Char)
  | 0, s => [s]
  | f + 1, s =>
    match findFence s with
    | none => [s]
    | some (pre, m, rest) => pre :: m :: splitByFence f rest

/-- Bullet characters of the list-run pattern `[-\+\*]` (line 219). -/
def isBullet (c : Char) : Bool := c = '-' || c = '+' || c = '*'

/-- Characters of the class `[{0-9}]`: the braces and the digits 0-9. -/
def isNumCl (c : Char) : Bool :=
  c = '\x7b' || c = '\x7d' || ('0' ≤ c && c ≤ '9')

/-- Match one repetition `\s*(?:[-\+\*]|[{0-9}]+\.)\s+[^\n]+\n?` of the
list-run pattern: leading whitespace (which may span newlines), a bullet
or a digits-plus-dot marker, whitespace, line content, an optional
newline.  Returns `(consumed, rest)`. -/
def listRepOne (s : List Char) : Option (List Char × List Char) :=
  let w := s.takeWhile isWs
  let r := s.dropWhile isWs
  let marker : Option (List Char × List Char) :=
    match r with
    | c :: r₂ =>
      if isBullet c then some ([c], r₂)
      else
        let d := r.takeWhile isNumCl
        if d.isEmpty then none
        else
          match r.drop d.length with
          | '.' :: r₃ => some (d ++ ['.'], r₃)
          | _ => none
    | [] => none
  match marker with
  | some (mk, r₂) =>
    match spcContent r₂ with
    | some (consumed₂, _, rest₂) =>
      match rest₂ with
      | '\n' :: r₃ => some (w ++ mk ++ consumed₂ ++ ['\n'], r₃)
      | _ => some (w ++ mk ++ consumed₂, rest₂)
    | none => none
  | none => none

/-- Greedy repetition of `listRepOne` (fuelled). -/
def listRunAux : Nat → List Char → List Char × List Char
  | 0, s => ([], s)
  | f + 1, s =>
    match listRepOne s with
    | none => ([], s)
    | some (c, r) =>
      let p := listRunAux f r
      (c ++ p.1, p.2)

/-- Match the full list-run pattern `^((?:\s*(?:[-\+\*]|[{0-9}]+\.)\s+[^\n]+\n?)+)`
at the current position: one or more marker lines.  Returns
`(match, rest)`. -/
def listRunMatchAt (s : List Char) : Option (List Char × List Char) :=
  match listRepOne s with
  | none => none
  | some (c, r) =>
    let p := listRunAux r.length r
    some (c ++ p.1, p.2)

/-- First list-run match at a line start, scanning left to right:
`(prefix, match, rest)`.  `ls` is the at-line-start flag for the current
position. -/
def findListRun : Bool → List Char → Option (List Char × List Char × List Char)
  | ls, s =>
    match (if ls then listRunMatchAt s else none) with
    | some (m, rest) => some ([], m, rest)
    | none =>
      match s with
      | [] => none
      | c :: t => (findListRun (c = '\n' || c = '\r') t).map
          (fun p => (c :: p.1, p.2.1, p.2.2))

/-- Capturing split on the list-run pattern, modelling
`val.split(/^((?:\s*(?:[-\+\*]|[{0-9}]+\.)\s+[^\n]+\n?)+)/gm)`. -/
def splitByList : Nat → Bool → List Char → List (List Char)
  | 0, _, s => [s]
  | f + 1, ls, s =>
    match findListRun ls s with
    | none => [s]
    | some (pre, m, rest) => pre :: m :: splitByList f (lsAfter m) rest

/-- The `RenderModes` enum of markdown.js. -/
inductive RenderModes where
  | NORMAL
  | BLOCK
  | TABLE
  | LIST
deriving DecidableEq, Repr

/-- An `ElementContext`: a segment of the raw text together with its
rendering mode. -/
structure Seg where
  innerText : List Char
  renderingMode : RenderModes
deriving DecidableEq, Repr

/-- Stateful `codeblockRegex.test(value)`: with the `g` flag, the search
starts at `lastIndex`; on success `lastIndex` moves to the match end, on
failure it resets to 0. -/
def jsTestFence (li : Nat) (s : List Char) : Bool × Nat :=
  if li > s.length then (false, 0)
  else
    match findFence (s.drop li) with
    | some (pre, m, _) => (true, li + pre.length + m.length)
    | none => (false, 0)

/-- Walk used by the stateful `listRegex.test(value)`: find a list-run
match starting at a line-start position `≥ li`, returning its end
position. -/
def jsTestListAux : Nat → Nat → Bool → List Char → Option Nat := fun li p ls s =>
  match (if li ≤ p && ls then listRunMatchAt s else none) with
  | some (m, _) => some (p + m.length)
  | none =>
    match s with
    | [] => none
    | c :: t => jsTestListAux li (p + 1) (c = '\n' || c = '\r') t

/-- Stateful `listRegex.test(value)` with `lastIndex` handling. -/
def jsTestList (li : Nat) (s : List Char) : Bool × Nat :=
  if li > s.length then (false, 0)
  else
    match jsTestListAux li 0 true s with
    | some e => (true, e)
    | none => (false, 0)

/-- The tagging loop of `parseMarkdownElements`: both regex objects are
created once per element, so their `lastIndex` state persists across the
`map` over the split pieces; `codeblockRegex.test` runs on every piece,
`listRegex.test` only when the former returned false. -/
def tagParts : Nat → Nat → List (List Char) → List Seg
  | _, _, [] => []
  | fLi, lLi, v :: rest =>
    let fr := jsTestFence fLi v
    if fr.1 then ⟨v, .BLOCK⟩ :: tagParts fr.2 lLi rest
    else
      let lr := jsTestList lLi v
      ⟨v, if lr.1 then .LIST else .NORMAL⟩ :: tagParts fr.2 lr.2 rest

/-- The segmentation of `parseMarkdownElements`: split on the fenced-code
pattern, split every piece on the list-run pattern, flatten, then tag
each piece with the stateful tests. -/
def segmentsOf (s : List Char) : List Seg :=
  tagParts 0 0
    ((splitByFence (s.length + 1) s).map
      (fun v => splitByList (v.length + 1) true v)).flatten

/-- Ordered-list test `/\s+[{1-9}]+\..*$/.test(html)`: somewhere in the
string, whitespace followed by a run of `{`, `}`, `1`-`9` (zero is not
in the class), a dot, and no line terminator between there and the end
(`.` matches neither `\n` nor `\r`, and `$` without the `m` flag only
matches at the end of the input). -/
def isOrdCl (c : Char) : Bool :=
  c = '\x7b' || c = '\x7d' || ('1' ≤ c && c ≤ '9')

/-- Test the ordered-marker pattern at the current position only. -/
def ordTestAt (s : List Char) : Bool :=
  let w := s.takeWhile isWs
  let r := s.dropWhile isWs
  if w.isEmpty then false
  else
    let d := r.takeWhile isOrdCl
    if d.isEmpty then false
    else
      match r.drop d.length with
      | '.' :: r₂ => r₂.all (fun c => c ≠ '\n' && c ≠ '\r')
      | _ => false

/-- The full (unanchored) ordered-list test. -/
def ordTest : List Char → Bool
  | [] => false
  | c :: t => ordTestAt (c :: t) || ordTest t

/-- Matcher for the list-item rule `/^\s*(?:[-|\+|\*]|[{0-9}]+\.)\s+([^\n]+)/gm`
with replacement `<li>$1</li>`.  Note that this bullet class also
contains the pipe character, unlike the segmentation pattern. -/
def itemM : Matcher := fun ls s =>
  if !ls then none
  else
    let w := s.takeWhile isWs
    let r := s.dropWhile isWs
    let marker : Option (List Char × List Char) :=
      match r with
      | c :: r₂ =>
        if isBullet c || c = '|' then some ([c], r₂)
        else
          let d := r.takeWhile isNumCl
          if d.isEmpty then none
          else
            match r.drop d.length with
            | '.' :: r₃ => some (d ++ ['.'], r₃)
            | _ => none
      | [] => none
    match marker with
    | some (mk, r₂) =>
      match spcContent r₂ with
      | some (consumed₂, cap, rest₂) =>
        some ("<li>".data ++ cap ++ "</li>".data, rest₂, lsAfter (w ++ mk ++ consumed₂))
      | none => none
    | none => none

/-- The six text-format rules, in source order. -/
def applyTextFmt (s : List Char) : List Char :=
  runRule (fmtM "~~".data "<s>".data "</s>".data)
    (runRule (fmtM "__".data "<u>".data "</u>".data)
      (runRule (fmtM "`".data "<code>".data "</code>".data)
        (runRule (fmtM "*".data "<i>".data "</i>".data)
          (runRule (fmtM "**".data "<b>".data "</b>".data)
            (runRule (fmtM "***".data "<i><b>".data "</b></i>".data) s)))))

/-- The two external-content rules: images before links. -/
def applyExternal (s : List Char) : List Char :=
  runRule linkM (runRule imgM s)

/-- The `markdownRules` pipeline: headers (level 6 down to 1), thematic
break, external content, paragraph wrap, paragraph unwrap, text formats. -/
def markdownRulesApply (s : List Char) : List Char :=
  applyTextFmt (runRule unwrapM (runRule paraM (applyExternal
    (hrRepl (runRule (headerM 1) (runRule (headerM 2) (runRule (headerM 3)
      (runRule (headerM 4) (runRule (headerM 5) (runRule (headerM 6) s))))))))))

/-- The `listRules` pipeline: list items, external content, text formats. -/
def listRulesApply (s : List Char) : List Char :=
  applyTextFmt (applyExternal (runRule itemM s))

/-- The `tableRules` pipeline: external content then text formats. -/
def tableRulesApply (s : List Char) : List Char :=
  applyTextFmt (applyExternal s)

/-- The per-segment dispatch of `renderMarkdownElement`: escape, trim, then
apply the rule set of the segment's mode (wrapping a List fragment in an
ordered or unordered container according to `ordTest`). -/
def renderSeg (mode : RenderModes) (text : List Char) : List Char :=
  let html := jsTrim (escapeHtml text)
  match mode with
  | .BLOCK => runRule fenceBlockM html
  | .TABLE => tableRulesApply html
  | .LIST =>
    let body := listRulesApply html
    if ordTest html then "<ol>".data ++ body ++ "</ol>".data
    else "<ul>".data ++ body ++ "</ul>".data
  | .NORMAL => markdownRulesApply html

/-- The whole pipeline for one element: segmentation, per-segment
rendering, concatenation of the fragments in order. -/
def render (s : List Char) : List Char :=
  ((segmentsOf s).map (fun seg => renderSeg seg.renderingMode seg.innerText)).flatten

/-- Line-by-line description of what the paragraph rule does to a string:
on each line, the prefix up to the last non-whitespace character is
wrapped in a paragraph tag when it is at least two characters long (the
newline being absorbed when the line has no trailing whitespace), and
shorter lines are left alone.  This is the specification-side function
the scan-based rule is proved equal to. -/
def wrapLines : Nat → List Char → List Char
  | 0, s => s
  | _ + 1, [] => []
  | f + 1, c₀ :: t₀ =>
    let line := (c₀ :: t₀).takeWhile (fun c => c ≠ '\n')
    let t := rstripLen line
    let core := if t ≥ 2 then "<p>".data ++ line.take t ++ "</p>".data ++ line.drop t
                else line
    match (c₀ :: t₀).drop line.length with
    | [] => core
    | _ :: r =>
      if t ≥ 2 ∧ t = line.length then core ++ wrapLines f r
      else core ++ '\n' :: wrapLines f r

/-- The line-by-line paragraph wrapper with enough fuel for the whole
string. -/
def wrapAll (s : List Char) : List Char := wrapLines (s.length + 1) s

/-- A character that plays no role in any rule of the renderer: not an
escaping target, not a fence or text-format delimiter, not a header,
thematic-break, bullet or numeric marker character, and not the opener
of an image or link. -/
def plainCh (c : Char) : Bool :=
  !(c = '&' || c = '<' || c = '>' || c = '"' || c = '\'' || c = '\\' ||
    c = '`' || c = '#' || c = '_' || c = '~' || c = '[' || c = '|' ||
    isBullet c || isNumCl c)

/-- No suffix of `s` begins with `<p><`, so the paragraph-unwrap rule can
never fire inside `s`. -/
def noPO (s : List Char) : Prop :=
  ∀ v, v <:+ s → startsW "<p><".data v = false

/-- Stateless version of `codeblockRegex.test`: the element contains a
fenced-code match somewhere. -/
def fenceTestPure (s : List Char) : Bool := (findFence s).isSome

/-- Stateless version of `listRegex.test`: the element contains a list-run
match starting at some line-start position. -/
def listTestPure (s : List Char) : Bool := (jsTestListAux 0 0 true s).isSome

/-- The escape sequences that may follow an ampersand in escaped output. -/
def ampSuffix (t : List Char) : Bool :=
  startsW "amp;".data t || startsW "lt;".data t || startsW "gt;".data t ||
    startsW "quot;".data t || startsW "#".data t

/-- Every ampersand in the string starts one of the escape sequences
produced by `escapeHtml` ("no unescaped ampersand"). -/
def ampOkB : List Char → Bool
  | [] => true
  | c :: t => (if c = '&' then ampSuffix t else true) && ampOkB t

/-- The five character-reference passes of `escapeHtml` (everything except
the backslash pass). -/
def escPasses (s : List Char) : List Char :=
  replCh '\'' "&#039;".data (replCh '"' "&quot;".data
    (replCh '>' "&gt;".data (replCh '<' "&lt;".data (replCh '&' "&amp;".data s))))

/-! ## Generic utilities -/

theorem startsW_append (p r : List Char) : startsW p (p ++ r) = true := by
  induction p with
  | nil => rfl
  | cons c t ih => simp [startsW, ih]

theorem startsW_eq_append {p s : List Char} (h : startsW p s = true) :
    p ++ s.drop p.length = s := by
  induction p generalizing s with
  | nil => simp
  | cons c t ih =>
    cases s with
    | nil => simp [startsW] at h
    | cons c₂ s₂ =>
      simp only [startsW, Bool.and_eq_true, decide_eq_true_eq] at h
      obtain ⟨rfl, h₂⟩ := h
      simpa using ih h₂

theorem takeWhile_append_not {p : Char → Bool} {c : Char} (hc : p c = false)
    (xs ys : List Char) : (xs ++ c :: ys).takeWhile p = xs.takeWhile p := by
  induction xs with
  | nil => simp [List.takeWhile_cons, hc]
  | cons x t ih =>
    by_cases hx : p x
    · simp [List.takeWhile_cons, hx, ih]
    · simp [List.takeWhile_cons, hx]

theorem takeWhile_all {p : Char → Bool} {l : List Char} (h : ∀ c ∈ l, p c = true) :
    l.takeWhile p = l := by
  induction l with
  | nil => rfl
  | cons c t ih =>
    simp [List.takeWhile_cons, h c (by simp), ih (fun x hx => h x (by simp [hx]))]

theorem dropWhile_all {p : Char → Bool} {l : List Char} (h : ∀ c ∈ l, p c = true) :
    l.dropWhile p = [] := by
  induction l with
  | nil => rfl
  | cons c t ih =>
    simp [List.dropWhile_cons, h c (by simp), ih (fun x hx => h x (by simp [hx]))]

theorem mem_head?_drop {s : List Char} {k : Nat} {c : Char}
    (h : (s.drop k).head? = some c) : c ∈ s := by
  have h₂ : c ∈ s.drop k := by
    cases hd : s.drop k with
    | nil => simp [hd] at h
    | cons a t => simp [hd] at h; simp [hd, h]
  exact (List.drop_sublist k s).mem h₂

/-! ## Reconstruction lemmas: the splits partition the input (claim C2) -/

theorem findTriple_eq {s b a : List Char} (h : findTriple s = some (b, a)) :
    b ++ "```".data ++ a = s := by
  induction s generalizing b with
  | nil => simp [findTriple] at h
  | cons c t ih =>
    rw [findTriple] at h
    split at h
    · rename_i hs
      simp only [Option.some.injEq, Prod.mk.injEq] at h
      obtain ⟨rfl, rfl⟩ := h
      have := startsW_eq_append hs
      simpa using this
    · cases hf : findTriple t with
      | none => rw [hf] at h; simp at h
      | some p =>
        rw [hf] at h
        simp only [Option.map_some', Option.some.injEq, Prod.mk.injEq] at h
        obtain ⟨rfl, rfl⟩ := h
        have := @ih p.1 (by simp [hf])
        simpa using congrArg (c :: ·) this

theorem nlSplit_eq {s nl r : List Char} (h : nlSplit s = some (nl, r)) :
    nl ++ r = s := by
  match s with
  | [] => simp [nlSplit] at h
  | [c] =>
    rw [nlSplit] at h
    split at h
    · rename_i hc
      simp only [Option.some.injEq, Prod.mk.injEq] at h
      obtain ⟨rfl, rfl⟩ := h
      simp [hc]
    · simp at h
  | c :: c₂ :: t =>
    rw [nlSplit] at h
    split at h
    · rename_i hc
      simp only [Option.some.injEq, Prod.mk.injEq] at h
      obtain ⟨rfl, rfl⟩ := h
      simp [hc]
    · split at h
      · rename_i hc
        simp only [Bool.and_eq_true, decide_eq_true_eq] at hc
        simp only [Option.some.injEq, Prod.mk.injEq] at h
        obtain ⟨rfl, rfl⟩ := h
        simp [hc.1, hc.2]
      · simp at h

theorem fenceMatchAt_eq {s whole inner rest : List Char}
    (h : fenceMatchAt s = some (whole, inner, rest)) : whole ++ rest = s := by
  rw [fenceMatchAt] at h
  split at h
  · rename_i hs
    dsimp only at h
    split at h
    · rename_i nl body hnl
      split at h
      · rename_i inner₂ rest₂ hft
        simp only [Option.some.injEq, Prod.mk.injEq] at h
        obtain ⟨rfl, -, rfl⟩ := h
        have h₁ := startsW_eq_append hs
        have h₂ : (s.drop 3).takeWhile (fun c => !isWs c) ++
            (s.drop 3).dropWhile (fun c => !isWs c) = s.drop 3 :=
          List.takeWhile_append_dropWhile _ _
        have h₃ := nlSplit_eq hnl
        have h₄ := findTriple_eq hft
        have hlen : ("```".data : List Char).length = 3 := by rfl
        calc ("```".data ++ (s.drop 3).takeWhile (fun c => !isWs c) ++ nl ++ inner₂ ++
              "```".data) ++ rest₂
            = "```".data ++ ((s.drop 3).takeWhile (fun c => !isWs c) ++
              (nl ++ (inner₂ ++ "```".data ++ rest₂))) := by
              simp [List.append_assoc]
          _ = "```".data ++ ((s.drop 3).takeWhile (fun c => !isWs c) ++ (nl ++ body)) := by
              rw [h₄]
          _ = "```".data ++ ((s.drop 3).takeWhile (fun c => !isWs c) ++
              (s.drop 3).dropWhile (fun c => !isWs c)) := by rw [h₃]
          _ = "```".data ++ s.drop 3 := by rw [h₂]
          _ = s := by simpa using h₁
      · simp at h
    · simp at h
  · simp at h

theorem findFence_eq {s pre m rest : List Char}
    (h : findFence s = some (pre, m, rest)) : pre ++ m ++ rest = s := by
  induction s generalizing pre with
  | nil => simp [findFence] at h
  | cons c t ih =>
    rw [findFence] at h
    cases hm : fenceMatchAt (c :: t) with
    | some p =>
      rw [hm] at h
      simp only [Option.some.injEq, Prod.mk.injEq] at h
      obtain ⟨rfl, rfl, rfl⟩ := h
      simpa using @fenceMatchAt_eq (c :: t) p.1 p.2.1 p.2.2 (by simpa using hm)
    | none =>
      rw [hm] at h
      cases hf : findFence t with
      | none => rw [hf] at h; simp at h
      | some p =>
        rw [hf] at h
        simp only [Option.map_some', Option.some.injEq, Prod.mk.injEq] at h
        obtain ⟨rfl, rfl, rfl⟩ := h
        have := @ih p.1 (by simp [hf])
        simpa using congrArg (c :: ·) this

theorem splitByFence_flatten (f : Nat) (s : List Char) :
    (splitByFence f s).flatten = s := by
  induction f generalizing s with
  | zero => simp [splitByFence]
  | succ f ih =>
    rw [splitByFence]
    cases hf : findFence s with
    | none => simp
    | some p =>
      simp only [List.flatten_cons, ih]
      have := @findFence_eq s p.1 p.2.1 p.2.2 (by simpa using hf)
      simpa [List.append_assoc] using this

theorem spcContent_eq {s consumed cap rest : List Char}
    (h : spcContent s = some (consumed, cap, rest)) : consumed ++ rest = s := by
  rw [spcContent] at h
  dsimp only at h
  split at h
  · simp at h
  · split at h
    · rename_i r₂ t₂ hdw
      simp only [Option.some.injEq, Prod.mk.injEq] at h
      obtain ⟨rfl, -, rfl⟩ := h
      have h₁ : s.takeWhile isWs ++ s.dropWhile isWs = s :=
        List.takeWhile_append_dropWhile _ _
      have h₂ : (s.dropWhile isWs).takeWhile (fun c => c ≠ '\n') ++
          (s.dropWhile isWs).dropWhile (fun c => c ≠ '\n') = s.dropWhile isWs :=
        List.takeWhile_append_dropWhile _ _
      calc (s.takeWhile isWs ++ (s.dropWhile isWs).takeWhile (fun c => c ≠ '\n')) ++
            (s.dropWhile isWs).dropWhile (fun c => c ≠ '\n')
          = s.takeWhile isWs ++ ((s.dropWhile isWs).takeWhile (fun c => c ≠ '\n') ++
            (s.dropWhile isWs).dropWhile (fun c => c ≠ '\n')) := by simp [List.append_assoc]
        _ = s.takeWhile isWs ++ s.dropWhile isWs := by rw [h₂]
        _ = s := h₁
    · rename_i hdw
      split at h
      · simp only [Option.some.injEq, Prod.mk.injEq] at h
        obtain ⟨rfl, -, rfl⟩ := h
        have h₁ : s.takeWhile isWs ++ s.dropWhile isWs = s :=
          List.takeWhile_append_dropWhile _ _
        rw [hdw] at h₁
        simp only [List.append_nil] at h₁
        rw [List.take_append_drop, h₁]
      · simp at h

theorem take_takeWhile_len (p : Char → Bool) (l : List Char) :
    l.take (l.takeWhile p).length = l.takeWhile p := by
  induction l with
  | nil => rfl
  | cons c t ih =>
    by_cases hc : p c
    · simp [List.takeWhile_cons, hc, ih]
    · simp [List.takeWhile_cons, hc]

theorem listRepOne_eq {s c r : List Char} (h : listRepOne s = some (c, r)) :
    c ++ r = s := by
  rw [listRepOne] at h
  dsimp only at h
  split at h
  · rename_i mk r₂ hmk
    have hmarker : mk ++ r₂ = s.dropWhile isWs := by
      split at hmk
      · rename_i c₀ r₀ hr
        split at hmk
        · simp only [Option.some.injEq, Prod.mk.injEq] at hmk
          obtain ⟨rfl, rfl⟩ := hmk
          simp [hr]
        · split at hmk
          · simp at hmk
          · split at hmk
            · rename_i r₃ hdrop
              simp only [Option.some.injEq, Prod.mk.injEq] at hmk
              obtain ⟨rfl, rfl⟩ := hmk
              have h₁ := List.take_append_drop
                ((s.dropWhile isWs).takeWhile isNumCl).length (s.dropWhile isWs)
              rw [take_takeWhile_len, hdrop] at h₁
              simpa [List.append_assoc] using h₁
            · simp at hmk
      · simp at hmk
    have h₁ : s.takeWhile isWs ++ s.dropWhile isWs = s :=
      List.takeWhile_append_dropWhile _ _
    split at h
    · rename_i consumed₂ cap₂ rest₂ hspc
      have h₂ := spcContent_eq hspc
      split at h
      · rename_i r₃ hr₃
        simp only [Option.some.injEq, Prod.mk.injEq] at h
        obtain ⟨rfl, rfl⟩ := h
        conv_rhs => rw [← h₁, ← hmarker, ← h₂]
        simp [List.append_assoc]
      · simp only [Option.some.injEq, Prod.mk.injEq] at h
        obtain ⟨rfl, rfl⟩ := h
        conv_rhs => rw [← h₁, ← hmarker, ← h₂]
        simp [List.append_assoc]
    · simp at h
  · simp at h

theorem listRunAux_eq (f : Nat) (s : List Char) :
    (listRunAux f s).1 ++ (listRunAux f s).2 = s := by
  induction f generalizing s with
  | zero => simp [listRunAux]
  | succ f ih =>
    rw [listRunAux]
    cases hr : listRepOne s with
    | none => simp
    | some p =>
      have := @listRepOne_eq s p.1 p.2 (by simpa using hr)
      simp only
      rw [List.append_assoc, ih p.2]
      exact this

theorem listRunMatchAt_eq {s m rest : List Char}
    (h : listRunMatchAt s = some (m, rest)) : m ++ rest = s := by
  rw [listRunMatchAt] at h
  cases hr : listRepOne s with
  | none => rw [hr] at h; simp at h
  | some p =>
    rw [hr] at h
    simp only [Option.some.injEq, Prod.mk.injEq] at h
    obtain ⟨rfl, rfl⟩ := h
    have h₁ := @listRepOne_eq s p.1 p.2 (by simpa using hr)
    have h₂ := listRunAux_eq p.2.length p.2
    rw [List.append_assoc, h₂]
    exact h₁

theorem findListRun_eq {ls : Bool} {s pre m rest : List Char}
    (h : findListRun ls s = some (pre, m, rest)) : pre ++ m ++ rest = s := by
  induction s generalizing ls pre with
  | nil =>
    rw [findListRun] at h
    have h0 : listRunMatchAt ([] : List Char) = none := rfl
    cases ls <;> simp [h0] at h
  | cons c t ih =>
    rw [findListRun] at h
    split at h
    · rename_i m₂ rest₂ heq
      have hm : listRunMatchAt (c :: t) = some (m₂, rest₂) := by
        by_cases hls : ls = true
        · simpa [hls] using heq
        · simp [hls] at heq
      simp only [Option.some.injEq, Prod.mk.injEq] at h
      obtain ⟨rfl, rfl, rfl⟩ := h
      simpa using listRunMatchAt_eq hm
    · cases hf : findListRun (c = '\n' || c = '\r') t with
      | none => rw [hf] at h; simp at h
      | some p =>
        rw [hf] at h
        simp only [Option.map_some', Option.some.injEq, Prod.mk.injEq] at h
        obtain ⟨rfl, rfl, rfl⟩ := h
        have := @ih (c = '\n' || c = '\r') p.1 (by simp [hf])
        simpa using congrArg (c :: ·) this

theorem splitByList_flatten (f : Nat) (ls : Bool) (s : List Char) :
    (splitByList f ls s).flatten = s := by
  induction f generalizing ls s with
  | zero => simp [splitByList]
  | succ f ih =>
    rw [splitByList]
    cases hf : findListRun ls s with
    | none => simp
    | some p =>
      simp only [List.flatten_cons, ih]
      have := @findListRun_eq ls s p.1 p.2.1 p.2.2 (by simpa using hf)
      simpa [List.append_assoc] using this

theorem tagParts_texts (a b : Nat) (vs : List (List Char)) :
    (tagParts a b vs).map (fun seg => seg.innerText) = vs := by
  induction vs generalizing a b with
  | nil => rfl
  | cons v rest ih =>
    rw [tagParts]
    dsimp only
    split
    · simp [ih]
    · simp [ih]

theorem segmentsOf_texts_flatten (s : List Char) :
    (((segmentsOf s).map (fun seg => seg.innerText)).flatten) = s := by
  rw [segmentsOf, tagParts_texts]
  have h : ∀ L : List (List Char),
      ((L.map (fun v => splitByList (v.length + 1) true v)).flatten).flatten = L.flatten := by
    intro L
    induction L with
    | nil => rfl
    | cons v rest ih =>
      simp only [List.map_cons, List.flatten_cons, List.flatten_append, ih,
        splitByList_flatten]
  rw [h, splitByFence_flatten]

/-! ## Soundness of the stateful tagging (claim C1) -/

theorem findFence_cons_isSome {c : Char} {t : List Char}
    (h : (findFence t).isSome = true) : (findFence (c :: t)).isSome = true := by
  rw [findFence]
  cases hm : fenceMatchAt (c :: t) with
  | some p => simp
  | none =>
    cases hf : findFence t with
    | none => rw [hf] at h; simp at h
    | some p => simp

theorem findFence_drop_isSome {s : List Char} {k : Nat}
    (h : (findFence (s.drop k)).isSome = true) : (findFence s).isSome = true := by
  induction s generalizing k with
  | nil => simpa using h
  | cons c t ih =>
    cases k with
    | zero => simpa using h
    | succ k =>
      simp only [List.drop_succ_cons] at h
      exact findFence_cons_isSome (@ih k h)

theorem jsTestFence_sound {li : Nat} {s : List Char}
    (h : (jsTestFence li s).1 = true) : fenceTestPure s = true := by
  rw [jsTestFence] at h
  split at h
  · simp at h
  · cases hf : findFence (s.drop li) with
    | none => rw [hf] at h; simp at h
    | some p => exact @findFence_drop_isSome s li (by simp [hf])

theorem jsTestListAux_mono {li p : Nat} {ls : Bool} {s : List Char}
    (h : (jsTestListAux li p ls s).isSome = true) :
    (jsTestListAux 0 p ls s).isSome = true := by
  induction s generalizing p ls with
  | nil =>
    rw [jsTestListAux] at h ⊢
    have h0 : listRunMatchAt ([] : List Char) = none := rfl
    cases ls <;> simp [h0] at h
  | cons c t ih =>
    rw [jsTestListAux] at h ⊢
    cases ls with
    | false =>
      simp only [Bool.and_false, if_neg, Bool.false_eq_true, not_false_eq_true] at h ⊢
      exact ih h
    | true =>
      by_cases hli : li ≤ p
      · simp only [hli, Nat.zero_le, decide_eq_true_eq, decide_True, Bool.and_true,
          if_true, eq_self_iff_true, decide_eq_true_iff] at h ⊢
        cases hm : listRunMatchAt (c :: t) with
        | some m => simp
        | none => rw [hm] at h; exact ih h
      · rw [if_neg (by simp [hli])] at h
        rw [if_pos (by simp)]
        cases hm : listRunMatchAt (c :: t) with
        | some m => simp
        | none => exact ih h

theorem jsTestList_sound {li : Nat} {s : List Char}
    (h : (jsTestList li s).1 = true) : listTestPure s = true := by
  rw [jsTestList] at h
  split at h
  · simp at h
  · rw [listTestPure]
    split at h
    · rename_i e he
      exact @jsTestListAux_mono li _ _ _ (by simp [he])
    · simp at h

theorem tagParts_sound {a b : Nat} {vs : List (List Char)} {seg : Seg}
    (h : seg ∈ tagParts a b vs) :
    (seg.renderingMode = RenderModes.BLOCK → fenceTestPure seg.innerText = true) ∧
    (seg.renderingMode = RenderModes.LIST → listTestPure seg.innerText = true) := by
  induction vs generalizing a b with
  | nil => simp [tagParts] at h
  | cons v rest ih =>
    rw [tagParts] at h
    dsimp only at h
    by_cases hf : (jsTestFence a v).1 = true
    · rw [if_pos hf] at h
      rcases List.mem_cons.mp h with hhead | htail
      · subst hhead
        exact ⟨fun _ => jsTestFence_sound hf, fun hmode => by simp at hmode⟩
      · exact ih htail
    · rw [if_neg hf] at h
      rcases List.mem_cons.mp h with hhead | htail
      · subst hhead
        by_cases hl : (jsTestList b v).1 = true
        · simp only [hl, if_true]
          exact ⟨fun hmode => by simp at hmode, fun _ => jsTestList_sound hl⟩
        · simp only [hl, if_false]
          constructor
          · intro hmode; simp at hmode
          · intro hmode; simp at hmode
      · exact ih htail

/-! ## Invariants of `escapeHtml` (claims C3 and C5) -/

theorem mem_replCh {x c : Char} {r s : List Char} (h : c ∈ replCh x r s) :
    c ∈ r ∨ c ∈ s := by
  induction s with
  | nil => simp [replCh] at h
  | cons c₂ t ih =>
    rw [replCh] at h
    by_cases hc : c₂ = x
    · rw [if_pos hc] at h
      rcases List.mem_append.mp h with hr | ht
      · exact Or.inl hr
      · rcases ih ht with hr | ht₂
        · exact Or.inl hr
        · exact Or.inr (by simp [ht₂])
    · rw [if_neg hc] at h
      rcases List.mem_cons.mp h with rfl | ht
      · exact Or.inr (by simp)
      · rcases ih ht with hr | ht₂
        · exact Or.inl hr
        · exact Or.inr (by simp [ht₂])

theorem not_mem_replCh_self {x : Char} {r s : List Char} (hr : x ∉ r) :
    x ∉ replCh x r s := by
  induction s with
  | nil => simp [replCh]
  | cons c t ih =>
    rw [replCh]
    by_cases hc : c = x
    · rw [if_pos hc]
      intro h
      rcases List.mem_append.mp h with h₁ | h₂
      · exact hr h₁
      · exact ih h₂
    · rw [if_neg hc]
      intro h
      rcases List.mem_cons.mp h with h₁ | h₂
      · exact hc h₁.symm
      · exact ih h₂

theorem mem_decDigitsAux {f n : Nat} {c : Char} (h : c ∈ decDigitsAux f n) :
    ∃ d, d < 10 ∧ c = digitCh d := by
  induction f generalizing n with
  | zero => simp [decDigitsAux] at h
  | succ f ih =>
    rw [decDigitsAux] at h
    by_cases hn : n < 10
    · rw [if_pos hn] at h
      simp only [List.mem_singleton] at h
      exact ⟨n, hn, h⟩
    · rw [if_neg hn] at h
      rcases List.mem_append.mp h with h₁ | h₂
      · exact ih h₁
      · simp only [List.mem_singleton] at h₂
        exact ⟨n % 10, Nat.mod_lt _ (by omega), h₂⟩

theorem mem_replBsl {c : Char} {s : List Char} (h : c ∈ replBsl s) :
    c ∈ s ∨ c = '&' ∨ c = '#' ∨ c = ';' ∨ ∃ d, d < 10 ∧ c = digitCh d := by
  induction s using replBsl.induct with
  | case1 => simp [replBsl] at h
  | case2 c₂ =>
    rw [replBsl] at h
    simp only [List.mem_singleton] at h
    exact Or.inl (by simp [h])
  | case3 c₁ c₂ t hpair ih =>
    rw [replBsl, if_pos hpair] at h
    rcases List.mem_append.mp h with h₁ | h₂
    · rcases List.mem_cons.mp h₁ with rfl | h₃
      · exact Or.inr (Or.inl rfl)
      · rcases List.mem_cons.mp h₃ with rfl | h₄
        · exact Or.inr (Or.inr (Or.inl rfl))
        · exact Or.inr (Or.inr (Or.inr (Or.inr (mem_decDigitsAux h₄))))
    · rcases List.mem_cons.mp h₂ with rfl | h₃
      · exact Or.inr (Or.inr (Or.inr (Or.inl rfl)))
      · rcases ih h₃ with h₄ | h₄
        · exact Or.inl (by simp [h₄])
        · exact Or.inr h₄
  | case4 c₁ c₂ t hpair ih =>
    rw [replBsl, if_neg hpair] at h
    rcases List.mem_cons.mp h with rfl | h₂
    · exact Or.inl (by simp)
    · rcases ih h₂ with h₃ | h₃
      · exact Or.inl (by simp [h₃])
      · exact Or.inr h₃

theorem replCh_append_not_mem {x : Char} {r a z : List Char} (ha : x ∉ a) :
    replCh x r (a ++ z) = a ++ replCh x r z := by
  induction a with
  | nil => rfl
  | cons c t ih =>
    rw [List.cons_append, replCh, if_neg (by simp at ha; exact fun h => ha.1 h.symm)]
    rw [ih (by simp at ha; exact fun h => ha.2 h)]
    rfl

theorem startsW_replCh {x : Char} {r P t : List Char} (hP : x ∉ P)
    (h : startsW P t = true) : startsW P (replCh x r t) = true := by
  have hd := startsW_eq_append h
  rw [← hd, replCh_append_not_mem hP]
  exact startsW_append _ _

theorem ampOkB_cons (c : Char) (t : List Char) :
    ampOkB (c :: t) = ((if c = '&' then ampSuffix t else true) && ampOkB t) := rfl

theorem ampOkB_append_no_amp {D z : List Char} (hD : ∀ c ∈ D, c ≠ '&') :
    ampOkB (D ++ z) = ampOkB z := by
  induction D with
  | nil => rfl
  | cons c t ih =>
    rw [List.cons_append, ampOkB_cons, if_neg (hD c (by simp)),
      ih (fun c hc => hD c (by simp [hc]))]
    simp

theorem ampOk_replCh {x : Char} {r : List Char}
    (hP : x ∉ "amp;".data ∧ x ∉ "lt;".data ∧ x ∉ "gt;".data ∧
      x ∉ "quot;".data ∧ x ∉ "#".data)
    (hr : ∀ z, ampOkB z = true → ampOkB (r ++ z) = true)
    {s : List Char} (h : ampOkB s = true) : ampOkB (replCh x r s) = true := by
  induction s with
  | nil => simpa [replCh] using h
  | cons c t ih =>
    rw [ampOkB_cons, Bool.and_eq_true] at h
    rw [replCh]
    by_cases hc : c = x
    · rw [if_pos hc]
      exact hr _ (ih h.2)
    · rw [if_neg hc, ampOkB_cons, Bool.and_eq_true]
      refine ⟨?_, ih h.2⟩
      by_cases hamp : c = '&'
      · rw [if_pos hamp]
        rw [if_pos hamp] at h
        have h₁ := h.1
        rw [ampSuffix] at h₁ ⊢
        simp only [Bool.or_eq_true] at h₁ ⊢
        rcases h₁ with (((h₂ | h₂) | h₂) | h₂) | h₂
        · exact Or.inl (Or.inl (Or.inl (Or.inl (startsW_replCh hP.1 h₂))))
        · exact Or.inl (Or.inl (Or.inl (Or.inr (startsW_replCh hP.2.1 h₂))))
        · exact Or.inl (Or.inl (Or.inr (startsW_replCh hP.2.2.1 h₂)))
        · exact Or.inl (Or.inr (startsW_replCh hP.2.2.2.1 h₂))
        · exact Or.inr (startsW_replCh hP.2.2.2.2 h₂)
      · rw [if_neg hamp]

theorem digitCh_ne_amp {d : Nat} (hd : d < 10) : digitCh d ≠ '&' := by
  interval_cases d <;> decide

theorem ampOk_replAmp (s : List Char) :
    ampOkB (replCh '&' "&amp;".data s) = true := by
  induction s with
  | nil => rfl
  | cons c t ih =>
    rw [replCh]
    by_cases hc : c = '&'
    · rw [if_pos hc]
      have h₁ : startsW "amp;".data ("amp;".data ++ replCh '&' "&amp;".data t) = true :=
        startsW_append _ _
      simp only [show ("&amp;".data ++ replCh '&' "&amp;".data t) =
        '&' :: 'a' :: 'm' :: 'p' :: ';' :: replCh '&' "&amp;".data t from rfl]
      simp [ampOkB_cons, ampSuffix, ih, startsW]
    · rw [if_neg hc]
      simp [ampOkB_cons, hc, ih]

theorem ampOk_ins_lt (z : List Char) (hz : ampOkB z = true) :
    ampOkB ("&lt;".data ++ z) = true := by
  have h₁ : startsW "lt;".data ("lt;".data ++ z) = true := startsW_append _ _
  simp only [show ("&lt;".data ++ z) = '&' :: 'l' :: 't' :: ';' :: z from rfl]
  simp [ampOkB_cons, ampSuffix, hz, startsW]

theorem ampOk_ins_gt (z : List Char) (hz : ampOkB z = true) :
    ampOkB ("&gt;".data ++ z) = true := by
  have h₁ : startsW "gt;".data ("gt;".data ++ z) = true := startsW_append _ _
  simp only [show ("&gt;".data ++ z) = '&' :: 'g' :: 't' :: ';' :: z from rfl]
  simp [ampOkB_cons, ampSuffix, hz, startsW]

theorem ampOk_ins_quot (z : List Char) (hz : ampOkB z = true) :
    ampOkB ("&quot;".data ++ z) = true := by
  have h₁ : startsW "quot;".data ("quot;".data ++ z) = true := startsW_append _ _
  simp only [show ("&quot;".data ++ z) = '&' :: 'q' :: 'u' :: 'o' :: 't' :: ';' :: z from rfl]
  simp [ampOkB_cons, ampSuffix, hz, startsW]

theorem ampOk_ins_apos (z : List Char) (hz : ampOkB z = true) :
    ampOkB ("&#039;".data ++ z) = true := by
  simp only [show ("&#039;".data ++ z) = '&' :: '#' :: '0' :: '3' :: '9' :: ';' :: z from rfl]
  simp [ampOkB_cons, ampSuffix, hz, startsW]

theorem replBsl_append_no_bs {a z : List Char} (ha : ∀ c ∈ a, c ≠ '\\') :
    replBsl (a ++ z) = a ++ replBsl z := by
  induction a with
  | nil => rfl
  | cons c t ih =>
    have hc : c ≠ '\\' := ha c (by simp)
    cases h2 : t ++ z with
    | nil =>
      have ht : t = [] ∧ z = [] := by simpa using h2
      simp only [List.cons_append, h2, ht.1, ht.2]
      simp [replBsl]
    | cons c₂ t₂ =>
      rw [List.cons_append, h2, replBsl, if_neg (by simp [hc]), ← h2,
        ih (fun x hx => ha x (by simp [hx]))]
      simp

theorem startsW_replBsl {P t : List Char} (hP : ∀ c ∈ P, c ≠ '\\')
    (h : startsW P t = true) : startsW P (replBsl t) = true := by
  have hd := startsW_eq_append h
  rw [← hd, replBsl_append_no_bs hP]
  exact startsW_append _ _

theorem ampOk_replBsl {s : List Char} (h : ampOkB s = true) :
    ampOkB (replBsl s) = true := by
  induction s using replBsl.induct with
  | case1 => rfl
  | case2 c => simpa [replBsl] using h
  | case3 c₁ c₂ t hpair ih =>
    rw [replBsl, if_pos hpair]
    simp only [Bool.and_eq_true, decide_eq_true_eq] at hpair
    rw [ampOkB_cons, Bool.and_eq_true, ampOkB_cons, Bool.and_eq_true] at h
    have ht : ampOkB t = true := h.2.2
    have hdig : ∀ c ∈ decDigits c₂.toNat, c ≠ '&' := by
      intro c hc
      obtain ⟨d, hd, rfl⟩ := mem_decDigitsAux hc
      exact digitCh_ne_amp hd
    simp only [List.cons_append, List.append_assoc]
    rw [ampOkB_cons, Bool.and_eq_true]
    constructor
    · rw [if_pos rfl, ampSuffix]
      simp [startsW]
    · rw [ampOkB_cons, Bool.and_eq_true]
      refine ⟨by rw [if_neg (by decide)], ?_⟩
      rw [ampOkB_append_no_amp hdig, ampOkB_cons, Bool.and_eq_true]
      exact ⟨by rw [if_neg (by decide)], ih ht⟩
  | case4 c₁ c₂ t hpair ih =>
    rw [replBsl, if_neg (by simpa using hpair)]
    rw [ampOkB_cons, Bool.and_eq_true] at h
    rw [ampOkB_cons, Bool.and_eq_true]
    refine ⟨?_, ih h.2⟩
    by_cases hamp : c₁ = '&'
    · rw [if_pos hamp]
      rw [if_pos hamp] at h
      have h₁ := h.1
      rw [ampSuffix] at h₁ ⊢
      simp only [Bool.or_eq_true] at h₁ ⊢
      rcases h₁ with (((h₂ | h₂) | h₂) | h₂) | h₂
      · exact Or.inl (Or.inl (Or.inl (Or.inl (startsW_replBsl (by decide) h₂))))
      · exact Or.inl (Or.inl (Or.inl (Or.inr (startsW_replBsl (by decide) h₂))))
      · exact Or.inl (Or.inl (Or.inr (startsW_replBsl (by decide) h₂)))
      · exact Or.inl (Or.inr (startsW_replBsl (by decide) h₂))
      · exact Or.inr (startsW_replBsl (by decide) h₂)
    · rw [if_neg hamp]

theorem ampOk_escapeHtml (s : List Char) : ampOkB (escapeHtml s) = true := by
  rw [escapeHtml]
  apply ampOk_replBsl
  apply ampOk_replCh (by decide) ampOk_ins_apos
  apply ampOk_replCh (by decide) ampOk_ins_quot
  apply ampOk_replCh (by decide) ampOk_ins_gt
  apply ampOk_replCh (by decide) ampOk_ins_lt
  exact ampOk_replAmp s

theorem digitCh_good {d : Nat} (hd : d < 10) :
    digitCh d ≠ '<' ∧ digitCh d ≠ '>' ∧ digitCh d ≠ '"' ∧ digitCh d ≠ '\'' := by
  interval_cases d <;> exact ⟨by decide, by decide, by decide, by decide⟩

/-- None of the four markup-significant characters other than the ampersand
survives `escapeHtml`. -/
theorem escape_no_raw (s : List Char) :
    '<' ∉ escapeHtml s ∧ '>' ∉ escapeHtml s ∧ '"' ∉ escapeHtml s ∧
      '\'' ∉ escapeHtml s := by
  rw [escapeHtml]
  set s₁ := replCh '&' "&amp;".data s with hs₁
  set s₂ := replCh '<' "&lt;".data s₁ with hs₂
  set s₃ := replCh '>' "&gt;".data s₂ with hs₃
  set s₄ := replCh '"' "&quot;".data s₃ with hs₄
  set s₅ := replCh '\'' "&#039;".data s₄ with hs₅
  have h₂ : '<' ∉ s₂ := not_mem_replCh_self (by decide)
  have h₃ : '<' ∉ s₃ ∧ '>' ∉ s₃ := by
    refine ⟨fun h => ?_, not_mem_replCh_self (by decide)⟩
    rcases mem_replCh h with h₄ | h₄
    · simp at h₄
    · exact h₂ h₄
  have h₄ : '<' ∉ s₄ ∧ '>' ∉ s₄ ∧ '"' ∉ s₄ := by
    refine ⟨fun h => ?_, fun h => ?_, not_mem_replCh_self (by decide)⟩
    · rcases mem_replCh h with h₅ | h₅
      · simp at h₅
      · exact h₃.1 h₅
    · rcases mem_replCh h with h₅ | h₅
      · simp at h₅
      · exact h₃.2 h₅
  have h₅ : '<' ∉ s₅ ∧ '>' ∉ s₅ ∧ '"' ∉ s₅ ∧ '\'' ∉ s₅ := by
    refine ⟨fun h => ?_, fun h => ?_, fun h => ?_, not_mem_replCh_self (by decide)⟩
    · rcases mem_replCh h with h₆ | h₆
      · simp at h₆
      · exact h₄.1 h₆
    · rcases mem_replCh h with h₆ | h₆
      · simp at h₆
      · exact h₄.2.1 h₆
    · rcases mem_replCh h with h₆ | h₆
      · simp at h₆
      · exact h₄.2.2 h₆
  have final : ∀ c, c ∈ replBsl s₅ →
      c = '<' ∨ c = '>' ∨ c = '"' ∨ c = '\'' → False := by
    intro c hc hbad
    rcases mem_replBsl hc with h₆ | h₆ | h₆ | h₆ | ⟨d, hd, rfl⟩
    · rcases hbad with rfl | rfl | rfl | rfl
      · exact h₅.1 h₆
      · exact h₅.2.1 h₆
      · exact h₅.2.2.1 h₆
      · exact h₅.2.2.2 h₆
    · rcases hbad with rfl | rfl | rfl | rfl <;> simp_all
    · rcases hbad with rfl | rfl | rfl | rfl <;> simp_all
    · rcases hbad with rfl | rfl | rfl | rfl <;> simp_all
    · have := digitCh_good hd
      rcases hbad with h₇ | h₇ | h₇ | h₇ <;> simp_all
  exact ⟨fun h => final _ h (by simp), fun h => final _ h (by simp),
    fun h => final _ h (by simp), fun h => final _ h (by simp)⟩

/-! ## Block-mode rendering (claim C4) -/

theorem replCh_append (x : Char) (r a b : List Char) :
    replCh x r (a ++ b) = replCh x r a ++ replCh x r b := by
  induction a with
  | nil => rfl
  | cons c t ih =>
    rw [List.cons_append, replCh, replCh]
    by_cases hc : c = x
    · rw [if_pos hc, if_pos hc, ih, List.append_assoc]
    · rw [if_neg hc, if_neg hc, ih, List.cons_append]

theorem replCh_id {x : Char} {r a : List Char} (ha : x ∉ a) : replCh x r a = a := by
  induction a with
  | nil => rfl
  | cons c t ih =>
    rw [replCh, if_neg (fun h => ha (by simp [h])), ih (fun h => ha (by simp [h]))]

theorem replBsl_id {s : List Char} (hs : ∀ c ∈ s, c ≠ '\\') : replBsl s = s := by
  have := @replBsl_append_no_bs s [] hs
  simpa [show replBsl ([] : List Char) = [] from rfl] using this

theorem escapeHtml_eq_passes (s : List Char) : escapeHtml s = replBsl (escPasses s) := rfl

theorem mem_escPasses {c : Char} {s : List Char} (h : c ∈ escPasses s) :
    c ∈ s ∨ c ∈ "&amp;lt;g#039quo".data := by
  have hsub : ∀ u : List Char, u ∈ ["&#039;".data, "&quot;".data, "&gt;".data,
      "&lt;".data, "&amp;".data] → ∀ x ∈ u, x ∈ "&amp;lt;g#039quo".data := by decide
  rw [escPasses] at h
  rcases mem_replCh h with h₁ | h₁
  · exact Or.inr (hsub _ (by simp) _ h₁)
  rcases mem_replCh h₁ with h₂ | h₂
  · exact Or.inr (hsub _ (by simp) _ h₂)
  rcases mem_replCh h₂ with h₃ | h₃
  · exact Or.inr (hsub _ (by simp) _ h₃)
  rcases mem_replCh h₃ with h₄ | h₄
  · exact Or.inr (hsub _ (by simp) _ h₄)
  rcases mem_replCh h₄ with h₅ | h₅
  · exact Or.inr (hsub _ (by simp) _ h₅)
  · exact Or.inl h₅

theorem escPasses_append (a b : List Char) :
    escPasses (a ++ b) = escPasses a ++ escPasses b := by
  simp [escPasses, replCh_append]

theorem escPasses_no_bs {s : List Char} (hs : '\\' ∉ s) : ∀ c ∈ escPasses s, c ≠ '\\' := by
  intro c hc h
  subst h
  rcases mem_escPasses hc with h | h
  · exact hs h
  · revert h; decide

/-- With no backslash in the input, the backslash pass is inert and
`escapeHtml` is just the five character-reference passes. -/
theorem escapeHtml_no_bs {s : List Char} (hs : '\\' ∉ s) :
    escapeHtml s = escPasses s := by
  rw [escapeHtml_eq_passes, replBsl_id (escPasses_no_bs hs)]

theorem escPasses_tick : escPasses ['`'] = ['`'] := by decide

theorem escape_decomp_fence {body : List Char} (hbs : '\\' ∉ body) :
    escapeHtml ("```\n".data ++ body ++ "```".data) =
      "```\n".data ++ escapeHtml body ++ "```".data := by
  have hnb : '\\' ∉ ("```\n".data ++ body ++ "```".data) := by
    intro h
    rcases List.mem_append.mp h with h₁ | h₁
    · rcases List.mem_append.mp h₁ with h₂ | h₂
      · revert h₂; decide
      · exact hbs h₂
    · revert h₁; decide
  rw [escapeHtml_no_bs hnb, escapeHtml_no_bs hbs, escPasses_append, escPasses_append]
  have h₁ : escPasses "```\n".data = "```\n".data := by decide
  have h₂ : escPasses "```".data = "```".data := by decide
  rw [h₁, h₂]

theorem escapeHtml_no_tick {s : List Char} (hs : '`' ∉ s) (hbs : '\\' ∉ s) :
    '`' ∉ escapeHtml s := by
  rw [escapeHtml_no_bs hbs]
  intro h
  rcases mem_escPasses h with h₁ | h₁
  · exact hs h₁
  · revert h₁; decide

theorem jsTrim_id {s : List Char} {c d : Char} (hh : s.head? = some c)
    (hc : isWs c = false) (hl : s.getLast? = some d) (hd : isWs d = false) :
    jsTrim s = s := by
  rw [jsTrim]
  have h₁ : s.dropWhile isWs = s := by
    cases s with
    | nil => simp at hh
    | cons c₀ t =>
      simp only [List.head?_cons, Option.some.injEq] at hh
      subst hh
      simp [List.dropWhile_cons, hc]
  rw [h₁]
  have h₂ : s.reverse.dropWhile isWs = s.reverse := by
    have hrev : s.reverse.head? = some d := by rw [List.head?_reverse]; exact hl
    cases hs : s.reverse with
    | nil => simp
    | cons c₀ t =>
      rw [hs] at hrev
      simp only [List.head?_cons, Option.some.injEq] at hrev
      subst hrev
      simp [List.dropWhile_cons, hd]
  rw [h₂, List.reverse_reverse]

theorem findTriple_no_tick {a z : List Char} (ha : '`' ∉ a) :
    findTriple (a ++ '`' :: '`' :: '`' :: z) = some (a, z) := by
  induction a with
  | nil =>
    rw [List.nil_append, findTriple.eq_def]
    dsimp only
    rw [if_pos (by exact startsW_append "```".data z)]
    simp
  | cons c t ih =>
    rw [List.cons_append, findTriple.eq_def]
    dsimp only
    have hc : c ≠ '`' := fun h => ha (by simp [h])
    rw [if_neg ?_]
    · rw [ih (fun h => ha (by simp [h]))]
      rfl
    · simp only [startsW, Bool.and_eq_true, decide_eq_true_eq]
      rintro ⟨h₁, -⟩
      exact hc h₁.symm

theorem scanRepl_nil (m : Matcher) (f : Nat) (ls : Bool) : scanRepl m f ls [] = [] := by
  cases f <;> rfl

theorem scanRepl_cons_match {m : Matcher} {f : Nat} {ls ls₂ : Bool} {c : Char}
    {t emit rest : List Char} (h : m ls (c :: t) = some (emit, rest, ls₂)) :
    scanRepl m (f + 1) ls (c :: t) = emit ++ scanRepl m f ls₂ rest := by
  rw [scanRepl, h]

theorem scanRepl_cons_none {m : Matcher} {f : Nat} {ls : Bool} {c : Char}
    {t : List Char} (h : m ls (c :: t) = none) :
    scanRepl m (f + 1) ls (c :: t) = c :: scanRepl m f (c = '\n' || c = '\r') t := by
  rw [scanRepl, h]

theorem fenceBlock_run {eb : List Char} (htick : '`' ∉ eb) :
    runRule fenceBlockM ("```\n".data ++ eb ++ "```".data) =
      "<pre>\n".data ++ eb ++ "</pre>".data := by
  have hshape : "```\n".data ++ eb ++ "```".data =
      '`' :: ('`' :: '`' :: '\n' :: (eb ++ "```".data)) := by simp
  have hfm : fenceMatchAt ("```\n".data ++ eb ++ "```".data) =
      some ("```\n".data ++ eb ++ "```".data, '\n' :: eb, []) := by
    rw [fenceMatchAt]
    rw [if_pos ?ip]
    case ip =>
      have h₀ : "```\n".data ++ eb ++ "```".data =
          "```".data ++ ('\n' :: (eb ++ "```".data)) := by simp
      rw [h₀]
      exact startsW_append _ _
    dsimp only
    have hdrop : ("```\n".data ++ eb ++ "```".data).drop 3 = '\n' :: (eb ++ "```".data) := by
      rw [hshape]
      rfl
    rw [hdrop]
    have htw : ('\n' :: (eb ++ "```".data)).takeWhile (fun c => !isWs c) = [] := by
      simp [List.takeWhile_cons, isWs]
    have hdw : ('\n' :: (eb ++ "```".data)).dropWhile (fun c => !isWs c) =
        '\n' :: (eb ++ "```".data) := by
      simp [List.dropWhile_cons, isWs]
    rw [htw, hdw]
    have hnl : nlSplit ('\n' :: (eb ++ "```".data)) = some (['\n'], eb ++ "```".data) := by
      cases he : eb ++ "```".data with
      | nil => simp at he
      | cons c₂ t₂ => rw [nlSplit, if_pos rfl]
    rw [hnl]
    dsimp only
    have hft : findTriple (eb ++ "```".data) = some (eb, []) := by
      have h₁ : eb ++ "```".data = eb ++ '`' :: '`' :: '`' :: [] := by rfl
      rw [h₁, findTriple_no_tick htick]
    rw [hft]
    dsimp only
    simp [List.append_assoc]
  have hlast : lsAfter ("```\n".data ++ eb ++ "```".data) = false := by
    rw [lsAfter]
    have h₉ : ("```\n".data ++ eb ++ "```".data).getLast? = some '`' := by
      rw [List.getLast?_append]
      rfl
    rw [h₉]
    simp
  have hmatch : fenceBlockM true ("```\n".data ++ eb ++ "```".data) =
      some ("<pre>".data ++ ('\n' :: eb) ++ "</pre>".data, [], false) := by
    rw [fenceBlockM, hfm]
    dsimp only
    rw [hlast]
  rw [runRule, hshape]
  rw [show ('`' :: ('`' :: '`' :: '\n' :: (eb ++ "```".data))).length =
    ('`' :: '`' :: '\n' :: (eb ++ "```".data)).length + 1 from rfl]
  rw [scanRepl_cons_match (by rw [← hshape]; exact hmatch)]
  rw [scanRepl_nil]
  simp

theorem renderSeg_block_verbatim {body : List Char} (htick : '`' ∉ body)
    (hbs : '\\' ∉ body) :
    renderSeg RenderModes.BLOCK ("```\n".data ++ body ++ "```".data) =
      "<pre>\n".data ++ escapeHtml body ++ "</pre>".data := by
  have hesc := escape_decomp_fence hbs
  have heb : '`' ∉ escapeHtml body := escapeHtml_no_tick htick hbs
  have htrim : jsTrim (escapeHtml ("```\n".data ++ body ++ "```".data)) =
      "```\n".data ++ escapeHtml body ++ "```".data := by
    rw [hesc]
    refine @jsTrim_id _ '`' '`' ?_ (by decide) ?_ (by decide)
    · have h₀ : "```\n".data ++ escapeHtml body ++ "```".data =
          '`' :: ('`' :: '`' :: '\n' :: (escapeHtml body ++ "```".data)) := by simp
      rw [h₀]
      rfl
    · rw [List.getLast?_append]
      rfl
  show runRule fenceBlockM (jsTrim (escapeHtml ("```\n".data ++ body ++ "```".data))) =
    "<pre>\n".data ++ escapeHtml body ++ "</pre>".data
  rw [htrim]
  exact fenceBlock_run heb

/-! ## Text-format rules (claim C10) -/

theorem range_succ_reverse (k : Nat) :
    (List.range (k + 1)).reverse = k :: (List.range k).reverse := by
  rw [List.range_succ]
  simp

theorem fmtM_star_greedy {u v w : List Char}
    (hcl : ∀ c ∈ u ++ v ++ w, isFmtCl c = true) :
    fmtM "*".data "<i>".data "</i>".data true
      ('*' :: (u ++ '*' :: v ++ '*' :: w ++ ['*'])) =
      some ("<i>".data ++ (u ++ '*' :: v ++ '*' :: w) ++ "</i>".data, [], false) := by
  have hstar : isFmtCl '*' = true := by decide
  have hX : ∀ c ∈ u ++ '*' :: v ++ '*' :: w, isFmtCl c = true := by
    intro c hc
    simp only [List.mem_append, List.mem_cons] at hc
    rcases hc with (h | rfl | h) | rfl | h
    · exact hcl c (by simp [h])
    · exact hstar
    · exact hcl c (by simp [h])
    · exact hstar
    · exact hcl c (by simp [h])
  rw [fmtM]
  rw [if_neg (by simp [startsW])]
  dsimp only
  have hdrop1 : ('*' :: (u ++ '*' :: v ++ '*' :: w ++ ['*'])).drop ("*".data).length =
      u ++ '*' :: v ++ '*' :: w ++ ['*'] := by rfl
  rw [hdrop1]
  have hr : u ++ '*' :: v ++ '*' :: w ++ ['*'] = (u ++ '*' :: v ++ '*' :: w) ++ ['*'] := by
    simp
  have hrun : (u ++ '*' :: v ++ '*' :: w ++ ['*']).takeWhile isFmtCl =
      u ++ '*' :: v ++ '*' :: w ++ ['*'] := by
    apply takeWhile_all
    intro c hc
    rw [hr] at hc
    rcases List.mem_append.mp hc with h | h
    · exact hX c h
    · simp only [List.mem_singleton] at h
      subst h
      exact hstar
  rw [hrun]
  set X := u ++ '*' :: v ++ '*' :: w with hXdef
  have hlen : (u ++ '*' :: v ++ '*' :: w ++ ['*']).length = X.length + 1 := by
    rw [hr]
    simp
  have hXlen : 1 ≤ X.length := by
    rw [hXdef]
    simp only [List.length_append, List.length_cons]
    omega
  rw [hlen, range_succ_reverse, List.find?_cons]
  have hc1 : (decide (X.length + 1 ≥ 1) && decide (X.length + 1 + ("*".data).length ≤ X.length + 1) &&
      startsW "*".data ((u ++ '*' :: v ++ '*' :: w ++ ['*']).drop (X.length + 1))) = false := by
    have h₂ : ("*".data).length = 1 := rfl
    rw [h₂]
    simp
  rw [hc1, range_succ_reverse, List.find?_cons]
  have hdropX : (u ++ '*' :: v ++ '*' :: w ++ ['*']).drop X.length = ['*'] := by
    exact List.drop_left X ['*']
  have hc2 : (decide (X.length ≥ 1) && decide (X.length + ("*".data).length ≤ X.length + 1) &&
      startsW "*".data ((u ++ '*' :: v ++ '*' :: w ++ ['*']).drop X.length)) = true := by
    rw [hdropX]
    have h₂ : ("*".data).length = 1 := rfl
    rw [h₂]
    simp [hXlen, startsW]
  rw [hc2]
  dsimp only
  have htake : (u ++ '*' :: v ++ '*' :: w ++ ['*']).take X.length = X := by
    exact List.take_left X ['*']
  have hdropAll : (u ++ '*' :: v ++ '*' :: w ++ ['*']).drop (X.length + ("*".data).length) = [] := by
    apply List.drop_of_length_le
    rw [hXdef]
    simp only [List.length_append, List.length_cons]
    omega
  rw [htake, hdropAll]

theorem takeWhile_len_le (p : Char → Bool) (l : List Char) :
    (l.takeWhile p).length ≤ l.length := by
  induction l with
  | nil => simp
  | cons c t ih =>
    rw [List.takeWhile_cons]
    by_cases hc : p c = true
    · rw [if_pos hc]
      simp only [List.length_cons]
      omega
    · rw [if_neg hc]
      simp only [List.length_nil, List.length_cons]
      omega

theorem startsW_of_startsW_append {p x y : List Char} (h : startsW p x = true) :
    startsW p (x ++ y) = true := by
  have hd := startsW_eq_append h
  rw [← hd, List.append_assoc]
  exact startsW_append _ _

theorem startsW_len_le {p s : List Char} (h : startsW p s = true) :
    p.length ≤ s.length := by
  induction p generalizing s with
  | nil => simp
  | cons c t ih =>
    cases s with
    | nil => simp [startsW] at h
    | cons c₂ s₂ =>
      simp only [startsW, Bool.and_eq_true] at h
      have := ih h.2
      simp only [List.length_cons]
      omega

theorem startsW_take {p s : List Char} (h : startsW p s = true) :
    s.take p.length = p := by
  induction p generalizing s with
  | nil => simp
  | cons c t ih =>
    cases s with
    | nil => simp [startsW] at h
    | cons c₂ s₂ =>
      simp only [startsW, Bool.and_eq_true, decide_eq_true_eq] at h
      simp [h.1.symm, ih h.2]

theorem startsW_shorten {p x y : List Char} (h : startsW p (x ++ y) = true)
    (hlen : p.length ≤ x.length) : startsW p x = true := by
  have ht := startsW_take h
  rw [List.take_append_of_le_length hlen] at ht
  have hd : x = p ++ x.drop p.length := by
    conv_lhs => rw [← List.take_append_drop p.length x, ht]
  rw [hd]
  exact startsW_append _ _

theorem fmtM_consumes {d tO tC : List Char} (hd : d ≠ []) {ls ls₂ : Bool}
    {s e r : List Char} (h : fmtM d tO tC ls s = some (e, r, ls₂)) :
    r.length < s.length := by
  rw [fmtM] at h
  split at h
  · simp at h
  · rename_i hsw
    dsimp only at h
    split at h
    · rename_i k hk
      simp only [Option.some.injEq, Prod.mk.injEq] at h
      obtain ⟨-, rfl, -⟩ := h
      have hcond := List.find?_some hk
      simp only [Bool.and_eq_true, decide_eq_true_eq] at hcond
      have hk1 : 1 ≤ k := hcond.1.1
      have hdl : 1 ≤ d.length := by
        cases d with
        | nil => simp at hd
        | cons a b => simp
      have hsl : d.length ≤ s.length := by
        apply startsW_len_le
        simpa using hsw
      simp only [List.length_drop]
      omega
    · simp at h

theorem scanRepl_fuel {m : Matcher}
    (hm : ∀ ls s e r ls₂, m ls s = some (e, r, ls₂) → r.length < s.length) :
    ∀ (n : Nat) (s : List Char), s.length ≤ n → ∀ (f₁ f₂ : Nat) (ls : Bool),
      s.length ≤ f₁ → s.length ≤ f₂ → scanRepl m f₁ ls s = scanRepl m f₂ ls s := by
  intro n
  induction n with
  | zero =>
    intro s hs f₁ f₂ ls h₁ h₂
    have : s = [] := List.length_eq_zero.mp (by omega)
    subst this
    rw [scanRepl_nil, scanRepl_nil]
  | succ n ih =>
    intro s hs f₁ f₂ ls h₁ h₂
    cases s with
    | nil => rw [scanRepl_nil, scanRepl_nil]
    | cons c t =>
      cases f₁ with
      | zero => simp at h₁
      | succ f₁ =>
        cases f₂ with
        | zero => simp at h₂
        | succ f₂ =>
          cases hmm : m ls (c :: t) with
          | some p =>
            obtain ⟨e, r, l⟩ := p
            have hlt := hm ls (c :: t) e r l hmm
            simp only [List.length_cons] at hlt hs h₁ h₂
            rw [scanRepl_cons_match hmm, scanRepl_cons_match hmm,
              ih r (by omega) f₁ f₂ l (by omega) (by omega)]
          | none =>
            simp only [List.length_cons] at hs h₁ h₂
            rw [scanRepl_cons_none hmm, scanRepl_cons_none hmm,
              ih t (by omega) f₁ f₂ _ (by omega) (by omega)]

theorem fmtM_append_nl {d tO tC : List Char} (hnl : '\n' ∉ d) (ls : Bool)
    (x z : List Char) :
    fmtM d tO tC ls (x ++ '\n' :: z) =
      (fmtM d tO tC ls x).map (fun p => (p.1, p.2.1 ++ '\n' :: z, p.2.2)) := by
  by_cases hsw : startsW d (x ++ '\n' :: z) = true
  · have hdx : d.length ≤ x.length := by
      by_contra hgt
      push_neg at hgt
      have ht := startsW_take hsw
      rw [List.take_append_eq_append_take, List.take_of_length_le (by omega)] at ht
      have hmem : '\n' ∈ d := by
        rw [← ht]
        refine List.mem_append.mpr (Or.inr ?_)
        cases hdl : d.length - x.length with
        | zero => omega
        | succ w => simp
      exact hnl hmem
    have hswx : startsW d x = true := startsW_shorten hsw hdx
    have hdropeq : (x ++ '\n' :: z).drop d.length = x.drop d.length ++ '\n' :: z :=
      List.drop_append_of_le_length hdx
    have hruneq : ((x ++ '\n' :: z).drop d.length).takeWhile isFmtCl =
        (x.drop d.length).takeWhile isFmtCl := by
      rw [hdropeq]
      exact takeWhile_append_not (by decide) _ _
    rw [fmtM, fmtM, if_neg (by simp [hsw]), if_neg (by simp [hswx])]
    dsimp only
    rw [hruneq, hdropeq]
    cases hcand : (((List.range (((x.drop d.length).takeWhile isFmtCl).length + 1)).reverse).find?
        (fun k => decide (k ≥ 1) &&
          decide (k + d.length ≤ ((x.drop d.length).takeWhile isFmtCl).length) &&
          startsW d (((x.drop d.length).takeWhile isFmtCl).drop k))) with
    | none => rfl
    | some k =>
      dsimp only [Option.map_some']
      have hcond := List.find?_some hcand
      simp only [Bool.and_eq_true, decide_eq_true_eq] at hcond
      have hkd : k + d.length ≤ (x.drop d.length).length :=
        le_trans hcond.1.2 (takeWhile_len_le _ _)
      rw [List.drop_append_of_le_length hkd]
  · have hswx : startsW d x = false := by
      by_contra hx
      simp only [Bool.not_eq_false] at hx
      exact hsw (startsW_of_startsW_append hx)
    rw [fmtM, fmtM, if_pos (by simp [hsw]), if_pos (by simp [hswx])]
    rfl

theorem fmt_scan_nl {d tO tC : List Char} (hd : d ≠ []) (hnl : '\n' ∉ d) :
    ∀ (n : Nat) (x : List Char), x.length ≤ n → ∀ (z : List Char) (f : Nat) (ls : Bool),
      (x ++ '\n' :: z).length ≤ f →
      scanRepl (fmtM d tO tC) f ls (x ++ '\n' :: z) =
        scanRepl (fmtM d tO tC) x.length ls x ++
          '\n' :: scanRepl (fmtM d tO tC) z.length true z := by
  have hcons : ∀ ls s e r ls₂, fmtM d tO tC ls s = some (e, r, ls₂) → r.length < s.length :=
    fun ls s e r ls₂ h => fmtM_consumes hd h
  intro n
  induction n with
  | zero =>
    intro x hx z f ls hf
    have hxe : x = [] := List.length_eq_zero.mp (by omega)
    subst hxe
    simp only [List.nil_append, List.length_cons] at hf ⊢
    cases f with
    | zero => omega
    | succ f =>
      have hnone : fmtM d tO tC ls ('\n' :: z) = none := by
        have hsw : startsW d ('\n' :: z) = false := by
          cases d with
          | nil => simp at hd
          | cons a b =>
            have ha : a ≠ '\n' := fun h => hnl (by simp [h])
            simp [startsW, ha]
        rw [fmtM, if_pos (by simp [hsw])]
      rw [scanRepl_cons_none hnone]
      show ('\n' :: scanRepl (fmtM d tO tC) f true z) =
        [] ++ '\n' :: scanRepl (fmtM d tO tC) z.length true z
      rw [List.nil_append]
      congr 1
      exact scanRepl_fuel hcons z.length z le_rfl f z.length true (by omega) le_rfl
  | succ n ih =>
    intro x hx z f ls hf
    cases x with
    | nil =>
      exact ih [] (by simp) z f ls hf
    | cons c t =>
      simp only [List.length_append, List.length_cons] at hf
      cases f with
      | zero => omega
      | succ f =>
        rw [List.cons_append]
        have hrel := @fmtM_append_nl d tO tC hnl ls (c :: t) z
        cases hm : fmtM d tO tC ls (c :: t) with
        | none =>
          have hlong : fmtM d tO tC ls (c :: (t ++ '\n' :: z)) = none := by
            have h₀ := hrel
            rw [hm] at h₀
            simpa using h₀
          rw [scanRepl_cons_none hlong]
          simp only [List.length_cons] at hx
          rw [ih t (by omega) z f _ (by simp only [List.length_append, List.length_cons]; omega)]
          have hshort : scanRepl (fmtM d tO tC) (c :: t).length ls (c :: t) =
              c :: scanRepl (fmtM d tO tC) t.length (c = '\n' || c = '\r') t := by
            rw [show (c :: t).length = t.length + 1 from rfl]
            exact scanRepl_cons_none hm
          rw [hshort]
          simp
        | some p =>
          obtain ⟨e, r, l⟩ := p
          have hlong : fmtM d tO tC ls (c :: (t ++ '\n' :: z)) =
              some (e, r ++ '\n' :: z, l) := by
            have h₀ := hrel
            rw [hm] at h₀
            simpa using h₀
          rw [scanRepl_cons_match hlong]
          have hrlt := fmtM_consumes hd hm
          simp only [List.length_cons] at hrlt hx
          rw [ih r (by omega) z f l (by simp only [List.length_append, List.length_cons]; omega)]
          have hshort : scanRepl (fmtM d tO tC) (c :: t).length ls (c :: t) =
              e ++ scanRepl (fmtM d tO tC) t.length l r := by
            rw [show (c :: t).length = t.length + 1 from rfl]
            exact scanRepl_cons_match hm
          rw [hshort]
          have hfuel : scanRepl (fmtM d tO tC) t.length l r =
              scanRepl (fmtM d tO tC) r.length l r :=
            scanRepl_fuel hcons r.length r le_rfl t.length r.length l (by omega) le_rfl
          rw [hfuel]
          simp

theorem runRule_fmt_nl {d tO tC : List Char} (hd : d ≠ []) (hnl : '\n' ∉ d)
    (a z : List Char) :
    runRule (fmtM d tO tC) (a ++ '\n' :: z) =
      runRule (fmtM d tO tC) a ++ '\n' :: runRule (fmtM d tO tC) z := by
  rw [runRule, runRule, runRule]
  exact fmt_scan_nl hd hnl a.length a le_rfl z (a ++ '\n' :: z).length true le_rfl

/-- No text-format rule ever matches across a newline: the whole
text-format pass distributes over every newline of its input. -/
theorem applyTextFmt_nl (a z : List Char) :
    applyTextFmt (a ++ '\n' :: z) = applyTextFmt a ++ '\n' :: applyTextFmt z := by
  rw [applyTextFmt, applyTextFmt, applyTextFmt]
  rw [runRule_fmt_nl (by decide) (by decide)]
  rw [runRule_fmt_nl (by decide) (by decide)]
  rw [runRule_fmt_nl (by decide) (by decide)]
  rw [runRule_fmt_nl (by decide) (by decide)]
  rw [runRule_fmt_nl (by decide) (by decide)]
  rw [runRule_fmt_nl (by decide) (by decide)]

/-- The italic rule applied to a line with two (or more) single-asterisk
pairs produces one span from the first delimiter to the last. -/
theorem italic_run_greedy {u v w : List Char}
    (hcl : ∀ c ∈ u ++ v ++ w, isFmtCl c = true) :
    runRule (fmtM "*".data "<i>".data "</i>".data)
      ('*' :: (u ++ '*' :: v ++ '*' :: w ++ ['*'])) =
      "<i>".data ++ (u ++ '*' :: v ++ '*' :: w) ++ "</i>".data := by
  rw [runRule]
  rw [show ('*' :: (u ++ '*' :: v ++ '*' :: w ++ ['*'])).length =
    (u ++ '*' :: v ++ '*' :: w ++ ['*']).length + 1 from rfl]
  rw [scanRepl_cons_match (fmtM_star_greedy hcl), scanRepl_nil]
  simp

/-! ## The paragraph rule acts line by line (claim C7) -/

theorem rstripLen_le (l : List Char) : rstripLen l ≤ l.length := by
  rw [rstripLen]
  calc (l.reverse.dropWhile isWs).length ≤ l.reverse.length :=
        (List.dropWhile_sublist _).length_le
    _ = l.length := by simp

theorem rstripLen_cons (c : Char) (t : List Char) :
    rstripLen (c :: t) =
      if rstripLen t = 0 then (if isWs c then 0 else 1) else rstripLen t + 1 := by
  rw [rstripLen, rstripLen, List.reverse_cons, List.dropWhile_append]
  by_cases h : (t.reverse.dropWhile isWs).isEmpty = true
  · rw [if_pos h]
    have h₀ : (t.reverse.dropWhile isWs).length = 0 := by
      simpa [List.isEmpty_iff] using h
    rw [if_pos h₀]
    by_cases hc : isWs c
    · simp [List.dropWhile_cons, hc]
    · simp [List.dropWhile_cons, hc]
  · rw [if_neg h]
    have h₀ : ¬ (t.reverse.dropWhile isWs).length = 0 := by
      simpa [List.isEmpty_iff, List.length_eq_zero] using h
    rw [if_neg h₀]
    simp

theorem rstripLen_tail_le (c : Char) (t : List Char) : rstripLen t ≤ rstripLen (c :: t) := by
  rw [rstripLen_cons]
  by_cases h : rstripLen t = 0
  · rw [if_pos h, h]
    omega
  · rw [if_neg h]
    omega

theorem rstripLen_all_ws {l : List Char} (h : ∀ c ∈ l, isWs c = true) : rstripLen l = 0 := by
  rw [rstripLen]
  have h₀ : l.reverse.dropWhile isWs = [] :=
    dropWhile_all (fun c hc => h c (by simpa using hc))
  simp [h₀]

theorem rstrip_drop_ws (l : List Char) : ∀ c ∈ l.drop (rstripLen l), isWs c = true := by
  induction l with
  | nil => simp
  | cons c₀ t ih =>
    intro c hc
    rw [rstripLen_cons] at hc
    by_cases h : rstripLen t = 0
    · rw [if_pos h] at hc
      by_cases hw : isWs c₀
      · rw [if_pos hw] at hc
        simp only [List.drop_zero] at hc
        rcases List.mem_cons.mp hc with rfl | hc₂
        · exact hw
        · exact ih c (by simpa [h] using hc₂)
      · rw [if_neg hw] at hc
        simp only [List.drop_succ_cons, List.drop_zero] at hc
        exact ih c (by simpa [h] using hc)
    · rw [if_neg h] at hc
      simp only [List.drop_succ_cons] at hc
      exact ih c hc

theorem paraM_flag (ls₁ ls₂ : Bool) (s : List Char) : paraM ls₁ s = paraM ls₂ s := rfl

theorem paraM_none_of_lt {ls : Bool} {s : List Char}
    (h : rstripLen (s.takeWhile (fun c => c ≠ '\n')) < 2) : paraM ls s = none := by
  rw [paraM]
  dsimp only
  rw [if_neg (by omega)]

theorem takeWhile_line {L rest : List Char} (hL : ∀ c ∈ L, c ≠ '\n')
    (hrest : rest = [] ∨ ∃ r, rest = '\n' :: r) :
    (L ++ rest).takeWhile (fun c => c ≠ '\n') = L := by
  rcases hrest with rfl | ⟨r, rfl⟩
  · rw [List.append_nil]
    exact takeWhile_all (fun c hc => by simpa using hL c hc)
  · rw [takeWhile_append_not (by simp)]
    exact takeWhile_all (fun c hc => by simpa using hL c hc)

/-- Scanning with the paragraph matcher through a line whose content (after
removing trailing whitespace) is shorter than two characters copies the
line unchanged. -/
theorem para_scan_short : ∀ (n : Nat) (L rest : List Char), L.length ≤ n →
    (∀ c ∈ L, c ≠ '\n') → rstripLen L ≤ 1 →
    (rest = [] ∨ ∃ r, rest = '\n' :: r) →
    ∀ (f : Nat) (ls : Bool), (L ++ rest).length ≤ f →
    scanRepl paraM f ls (L ++ rest) = L ++ scanRepl paraM (f - L.length) true rest := by
  intro n
  induction n with
  | zero =>
    intro L rest hLn hL ht hrest f ls hf
    have : L = [] := List.length_eq_zero.mp (by omega)
    subst this
    simp only [List.nil_append, Nat.sub_zero]
    cases rest with
    | nil => rw [scanRepl_nil, scanRepl_nil]
    | cons c r =>
      cases f with
      | zero => simp at hf
      | succ f =>
        have hc : c = '\n' := by
          rcases hrest with h | ⟨r₂, hr⟩
          · simp at h
          · simpa using congrArg (fun l => l.head?) hr
        subst hc
        rfl
  | succ n ih =>
    intro L rest hLn hL ht hrest f ls hf
    cases L with
    | nil => exact ih [] rest (by simp) hL ht hrest f ls hf
    | cons c t =>
      simp only [List.length_cons] at hLn
      simp only [List.cons_append, List.length_append, List.length_cons] at hf
      cases f with
      | zero => omega
      | succ f =>
        rw [List.cons_append]
        have hline : ((c :: t) ++ rest).takeWhile (fun c => c ≠ '\n') = c :: t :=
          takeWhile_line hL hrest
        have hnone : paraM ls (c :: (t ++ rest)) = none := by
          apply paraM_none_of_lt
          rw [← List.cons_append, hline]
          omega
        rw [scanRepl_cons_none hnone]
        have ht₂ : rstripLen t ≤ 1 := le_trans (rstripLen_tail_le c t) ht
        rw [ih t rest (by omega) (fun x hx => hL x (by simp [hx])) ht₂ hrest f _
          (by simp only [List.length_append]; omega)]
        have hfe : f + 1 - (c :: t).length = f - t.length := by
          simp only [List.length_cons]
          omega
        rw [hfe]
        simp [List.cons_append]

theorem dropWhile_nl_shape (s : List Char) :
    s.dropWhile (fun c => c ≠ '\n') = [] ∨
      ∃ r, s.dropWhile (fun c => c ≠ '\n') = '\n' :: r := by
  induction s with
  | nil => exact Or.inl rfl
  | cons c t ih =>
    rw [List.dropWhile_cons]
    by_cases hc : c = '\n'
    · subst hc
      exact Or.inr ⟨t, by simp⟩
    · simpa [hc] using ih

theorem para_scan_eq : ∀ (n : Nat) (s : List Char), s.length ≤ n →
    ∀ (f g : Nat) (ls : Bool), s.length ≤ f → s.length < g →
    scanRepl paraM f ls s = wrapLines g s := by
  intro n
  induction n with
  | zero =>
    intro s hs f g ls hf hg
    have : s = [] := List.length_eq_zero.mp (by omega)
    subst this
    cases g with
    | zero => omega
    | succ g => rw [scanRepl_nil, wrapLines]
  | succ n ih =>
    intro s hs f g ls hf hg
    cases hcase : s with
    | nil =>
      subst hcase
      cases g with
      | zero => omega
      | succ g => rw [scanRepl_nil, wrapLines]
    | cons c₀ t₀ =>
      subst hcase
      have hLR : (c₀ :: t₀).takeWhile (fun c => c ≠ '\n') ++
          (c₀ :: t₀).dropWhile (fun c => c ≠ '\n') = c₀ :: t₀ :=
        List.takeWhile_append_dropWhile _ _
      have hLnl : ∀ c ∈ (c₀ :: t₀).takeWhile (fun c => c ≠ '\n'), c ≠ '\n' := by
        intro c hc
        have := List.mem_takeWhile_imp hc
        simpa using this
      have hR := dropWhile_nl_shape (c₀ :: t₀)
      have hdropL := List.drop_left ((c₀ :: t₀).takeWhile (fun c => c ≠ '\n'))
        ((c₀ :: t₀).dropWhile (fun c => c ≠ '\n'))
      rw [hLR] at hdropL
      have hLlen : ((c₀ :: t₀).takeWhile (fun c => c ≠ '\n')).length +
          ((c₀ :: t₀).dropWhile (fun c => c ≠ '\n')).length = t₀.length + 1 := by
        have h := congrArg List.length hLR
        simp only [List.length_append, List.length_cons] at h
        exact h
      cases g with
      | zero => simp at hg
      | succ g
      =>
      rw [wrapLines]
      dsimp only
      by_cases hT : rstripLen ((c₀ :: t₀).takeWhile (fun c => c ≠ '\n')) ≥ 2
      · -- the paragraph rule fires on this line
        have hTlen : rstripLen ((c₀ :: t₀).takeWhile (fun c => c ≠ '\n')) ≤
            ((c₀ :: t₀).takeWhile (fun c => c ≠ '\n')).length := rstripLen_le _
        by_cases hFull : rstripLen ((c₀ :: t₀).takeWhile (fun c => c ≠ '\n')) =
            ((c₀ :: t₀).takeWhile (fun c => c ≠ '\n')).length
        · -- the match covers the whole line
          have hdropT : (c₀ :: t₀).drop
              (rstripLen ((c₀ :: t₀).takeWhile (fun c => c ≠ '\n'))) =
              (c₀ :: t₀).dropWhile (fun c => c ≠ '\n') := by
            rw [hFull]
            exact hdropL
          rcases hR with hRnil | ⟨r, hRr⟩
          · -- no newline follows: the match ends the string
            have hpara : paraM ls (c₀ :: t₀) =
                some ("<p>".data ++
                  ((c₀ :: t₀).takeWhile (fun c => c ≠ '\n')).take
                    (rstripLen ((c₀ :: t₀).takeWhile (fun c => c ≠ '\n'))) ++
                  "</p>".data, [], false) := by
              rw [paraM]
              dsimp only
              rw [if_pos hT, if_pos hFull, hdropT, hRnil]
            cases f with
            | zero => simp at hf
            | succ f =>
              rw [scanRepl_cons_match hpara, scanRepl_nil, List.append_nil]
              rw [hdropL, hRnil]
              dsimp only
              have hcore : ((c₀ :: t₀).takeWhile (fun c => c ≠ '\n')).drop
                  (rstripLen ((c₀ :: t₀).takeWhile (fun c => c ≠ '\n'))) = [] := by
                rw [hFull, List.drop_length]
              rw [if_pos hT, hcore, List.append_nil]
          · -- a newline follows and is absorbed by the match
            have hpara : paraM ls (c₀ :: t₀) =
                some ("<p>".data ++
                  ((c₀ :: t₀).takeWhile (fun c => c ≠ '\n')).take
                    (rstripLen ((c₀ :: t₀).takeWhile (fun c => c ≠ '\n'))) ++
                  "</p>".data, r, true) := by
              rw [paraM]
              dsimp only
              rw [if_pos hT, if_pos hFull, hdropT, hRr]
              rfl
            cases f with
            | zero => simp at hf
            | succ f =>
              rw [scanRepl_cons_match hpara]
              rw [hdropL, hRr]
              dsimp only
              rw [if_pos (show _ ∧ _ from ⟨hT, hFull⟩)]
              have hrlen : r.length + 1 ≤ t₀.length + 1 := by
                rw [hRr] at hLlen
                simp only [List.length_cons] at hLlen
                omega
              rw [ih r (by simp at hs; omega) f g true (by simp at hf; omega)
                (by simp at hg; omega)]
              have hcore : ((c₀ :: t₀).takeWhile (fun c => c ≠ '\n')).drop
                  (rstripLen ((c₀ :: t₀).takeWhile (fun c => c ≠ '\n'))) = [] := by
                rw [hFull, List.drop_length]
              rw [if_pos hT, hcore, List.append_nil]
        · -- trailing whitespace stays outside the match
          have hTlt : rstripLen ((c₀ :: t₀).takeWhile (fun c => c ≠ '\n')) <
              ((c₀ :: t₀).takeWhile (fun c => c ≠ '\n')).length := by omega
          have hpara : paraM ls (c₀ :: t₀) =
              some ("<p>".data ++
                ((c₀ :: t₀).takeWhile (fun c => c ≠ '\n')).take
                  (rstripLen ((c₀ :: t₀).takeWhile (fun c => c ≠ '\n'))) ++
                "</p>".data,
                (c₀ :: t₀).drop (rstripLen ((c₀ :: t₀).takeWhile (fun c => c ≠ '\n'))),
                false) := by
            rw [paraM]
            dsimp only
            rw [if_pos hT, if_neg hFull]
          have hdropsplit := @List.drop_append_of_le_length Char
            ((c₀ :: t₀).takeWhile (fun c => c ≠ '\n'))
            ((c₀ :: t₀).dropWhile (fun c => c ≠ '\n'))
            (rstripLen ((c₀ :: t₀).takeWhile (fun c => c ≠ '\n')))
            (show rstripLen ((c₀ :: t₀).takeWhile (fun c => c ≠ '\n')) ≤
              ((c₀ :: t₀).takeWhile (fun c => c ≠ '\n')).length from by omega)
          rw [hLR] at hdropsplit
          cases f with
          | zero => simp at hf
          | succ f =>
            rw [scanRepl_cons_match hpara, hdropsplit]
            have hws := rstrip_drop_ws ((c₀ :: t₀).takeWhile (fun c => c ≠ '\n'))
            have hshort := para_scan_short
              (((c₀ :: t₀).takeWhile (fun c => c ≠ '\n')).drop
                (rstripLen ((c₀ :: t₀).takeWhile (fun c => c ≠ '\n')))).length
              (((c₀ :: t₀).takeWhile (fun c => c ≠ '\n')).drop
                (rstripLen ((c₀ :: t₀).takeWhile (fun c => c ≠ '\n'))))
              ((c₀ :: t₀).dropWhile (fun c => c ≠ '\n')) le_rfl
              (fun c hc => hLnl c (List.drop_sublist _ _ |>.mem hc))
              (le_trans (le_of_eq (rstripLen_all_ws hws)) (by omega)) hR f false ?flen
            case flen =>
              have h₁ := List.length_drop
                (rstripLen ((c₀ :: t₀).takeWhile (fun c => c ≠ '\n')))
                ((c₀ :: t₀).takeWhile (fun c => c ≠ '\n'))
              simp only [List.length_append, h₁]
              simp only [List.length_cons] at hf
              omega
            rw [hshort]
            rcases hR with hRnil | ⟨r, hRr⟩
            · rw [hRnil, scanRepl_nil, hdropL, hRnil]
              dsimp only
              rw [if_pos hT]
              simp [List.append_assoc]
            · rw [hRr, hdropL, hRr]
              dsimp only
              have hfr : f - (((c₀ :: t₀).takeWhile (fun c => c ≠ '\n')).drop
                  (rstripLen ((c₀ :: t₀).takeWhile (fun c => c ≠ '\n')))).length ≥
                  r.length + 1 := by
                have h₁ := List.length_drop
                  (rstripLen ((c₀ :: t₀).takeWhile (fun c => c ≠ '\n')))
                  ((c₀ :: t₀).takeWhile (fun c => c ≠ '\n'))
                rw [hRr] at hLlen
                simp only [List.length_cons] at hLlen hf
                omega
              cases hfu : f - (((c₀ :: t₀).takeWhile (fun c => c ≠ '\n')).drop
                  (rstripLen ((c₀ :: t₀).takeWhile (fun c => c ≠ '\n')))).length with
              | zero => omega
              | succ f₂ =>
                have hnl : paraM true ('\n' :: r) = none := by
                  apply paraM_none_of_lt
                  simp [List.takeWhile_cons, rstripLen]
                rw [scanRepl_cons_none hnl]
                have hflag : (decide ('\n' = '\n') || decide ('\n' = '\r')) = true := by decide
                rw [hflag]
                have hrlen : r.length + 1 ≤ t₀.length + 1 := by
                  rw [hRr] at hLlen
                  simp only [List.length_cons] at hLlen
                  omega
                rw [ih r (by simp at hs; omega) f₂ g true (by omega)
                  (by simp at hg; omega)]
                rw [if_neg (by omega), if_pos hT]
                simp [List.append_assoc]
      · -- the paragraph rule does not fire on this line
        cases f with
        | zero => simp at hf
        | succ f =>
          have hshort := para_scan_short
            ((c₀ :: t₀).takeWhile (fun c => c ≠ '\n')).length
            ((c₀ :: t₀).takeWhile (fun c => c ≠ '\n'))
            ((c₀ :: t₀).dropWhile (fun c => c ≠ '\n')) le_rfl hLnl (by omega) hR (f + 1) ls
            (by rw [hLR]; exact hf)
          rw [hLR] at hshort
          rw [hshort]
          rcases hR with hRnil | ⟨r, hRr⟩
          · rw [hRnil, scanRepl_nil, hdropL, hRnil]
            dsimp only
            rw [if_neg (by omega), List.append_nil]
          · rw [hRr, hdropL, hRr]
            dsimp only
            have hfr : f + 1 - ((c₀ :: t₀).takeWhile (fun c => c ≠ '\n')).length ≥
                r.length + 1 := by
              rw [hRr] at hLlen
              simp only [List.length_cons] at hLlen hf
              omega
            cases hfu : f + 1 - ((c₀ :: t₀).takeWhile (fun c => c ≠ '\n')).length with
            | zero => omega
            | succ f₂ =>
              have hnl : paraM true ('\n' :: r) = none := by
                apply paraM_none_of_lt
                simp [List.takeWhile_cons, rstripLen]
              rw [scanRepl_cons_none hnl]
              have hflag : (decide ('\n' = '\n') || decide ('\n' = '\r')) = true := by decide
              rw [hflag]
              have hrlen : r.length + 1 ≤ t₀.length + 1 := by
                rw [hRr] at hLlen
                simp only [List.length_cons] at hLlen
                omega
              rw [ih r (by simp at hs; omega) f₂ g true (by omega)
                (by simp at hg; omega)]
              rw [if_neg (by omega), if_neg (by omega)]

theorem para_run_eq_wrapAll (s : List Char) : runRule paraM s = wrapAll s :=
  para_scan_eq s.length s le_rfl s.length (s.length + 1) true le_rfl (by omega)

/-- A scan whose matcher fails at every suffix copies the string. -/
theorem scanRepl_id {m : Matcher} : ∀ {s : List Char} {f : Nat} {ls : Bool},
    (∀ (ls₂ : Bool) (k : Nat), m ls₂ (s.drop k) = none) → scanRepl m f ls s = s := by
  intro s
  induction s with
  | nil => intro f ls h; rw [scanRepl_nil]
  | cons c t ih =>
    intro f ls h
    cases f with
    | zero => rfl
    | succ f =>
      rw [scanRepl_cons_none (by simpa using h ls 0)]
      rw [ih (fun ls₂ k => by simpa using h ls₂ (k + 1))]

theorem headerM_none {n : Nat} (hn : 1 ≤ n) {ls : Bool} {s : List Char}
    (h : '#' ∉ s) : headerM n ls s = none := by
  rw [headerM]
  by_cases hls : ls
  · rw [if_neg (by simp [hls])]
    have hsw : startsW (List.replicate n '#') s = false := by
      cases n with
      | zero => omega
      | succ n =>
        cases s with
        | nil => rfl
        | cons c t =>
          have hc : c ≠ '#' := fun hc => h (by simp [hc])
          have hc2 : decide ('#' = c) = false := decide_eq_false (fun hh => hc hh.symm)
          rw [List.replicate_succ]
          simp [startsW, hc2]
    rw [if_pos (by simp [hsw])]
  · rw [if_pos (by simp [hls])]

theorem imgM_none {ls : Bool} {s : List Char} (h : '[' ∉ s) : imgM ls s = none := by
  cases s with
  | nil => rfl
  | cons c t =>
    cases t with
    | nil => rfl
    | cons c₂ t₂ =>
      have hc₂ : c₂ ≠ '[' := fun hc => h (by simp [hc])
      rw [imgM.eq_def]
      dsimp only
      rw [if_neg (by simp [hc₂])]

theorem linkM_none {ls : Bool} {s : List Char} (h : '[' ∉ s) : linkM ls s = none := by
  cases s with
  | nil => rfl
  | cons c t =>
    have hc : c ≠ '[' := fun hc => h (by simp [hc])
    rw [linkM.eq_def]
    dsimp only
    rw [if_neg (by simp [hc])]

theorem fmtM_none_of_head {d tO tC : List Char} {x : Char} (hd : d.head? = some x)
    {ls : Bool} {s : List Char} (h : x ∉ s) : fmtM d tO tC ls s = none := by
  have hsw : startsW d s = false := by
    cases d with
    | nil => simp at hd
    | cons a b =>
      simp only [List.head?_cons, Option.some.injEq] at hd
      subst hd
      cases s with
      | nil => rfl
      | cons c t =>
        have hc : a ≠ c := fun hh => h (by simp [hh])
        have hc2 : decide (a = c) = false := decide_eq_false hc
        simp [startsW, hc2]
  rw [fmtM, if_pos (by simp [hsw])]

theorem hrRepl_id {s : List Char} (h : '-' ∉ s) : hrRepl s = s := by
  rw [hrRepl]
  cases s with
  | nil => rfl
  | cons c t =>
    have hc : c ≠ '-' := fun hc => h (by simp [hc])
    have hc2 : decide ('-' = c) = false := decide_eq_false (fun hh => hc hh.symm)
    rw [if_neg (by simp [startsW, hc2])]

/-! ## Delimiter-free text: the segmenter yields a single Normal segment
and escaping is the identity -/

theorem plain_not_mem {s : List Char} (h : ∀ c ∈ s, plainCh c = true) {x : Char}
    (hx : plainCh x = false) : x ∉ s := fun hm => by
  have hh := h x hm
  rw [hx] at hh
  exact Bool.false_ne_true hh

theorem plain_parts {c : Char} (h : plainCh c = true) :
    isBullet c = false ∧ isNumCl c = false := by
  rw [plainCh] at h
  simp only [Bool.not_eq_true', Bool.or_eq_false_iff] at h
  exact ⟨h.1.2, h.2⟩

theorem escapeHtml_id {s : List Char} (h : ∀ c ∈ s, plainCh c = true) :
    escapeHtml s = s := by
  rw [escapeHtml,
    @replCh_id '&' "&amp;".data s (plain_not_mem h (by decide)),
    @replCh_id '<' "&lt;".data s (plain_not_mem h (by decide)),
    @replCh_id '>' "&gt;".data s (plain_not_mem h (by decide)),
    @replCh_id '"' "&quot;".data s (plain_not_mem h (by decide)),
    @replCh_id '\'' "&#039;".data s (plain_not_mem h (by decide)),
    replBsl_id (fun c hc hcc => absurd (h c hc) (by rw [hcc]; decide))]

theorem startsW_false_head {p c : Char} {ps cs : List Char} (h : p ≠ c) :
    startsW (p :: ps) (c :: cs) = false := by
  have hd : decide (p = c) = false := decide_eq_false h
  simp [startsW, hd]

theorem findTriple_none {s : List Char} (h : '`' ∉ s) : findTriple s = none := by
  induction s with
  | nil => rfl
  | cons c t ih =>
    have hc : c ≠ '`' := fun hcc => h (by simp [hcc])
    rw [findTriple, if_neg (by simp [startsW_false_head (fun hh => hc hh.symm)]),
      ih (fun hm => h (List.mem_cons_of_mem _ hm))]
    rfl

theorem fenceMatchAt_none {s : List Char} (h : '`' ∉ s) : fenceMatchAt s = none := by
  rw [fenceMatchAt]
  cases s with
  | nil => rfl
  | cons c t =>
    have hc : c ≠ '`' := fun hcc => h (by simp [hcc])
    rw [if_neg (by simp [startsW_false_head (fun hh => hc hh.symm)])]

theorem findFence_none {s : List Char} (h : '`' ∉ s) : findFence s = none := by
  induction s with
  | nil => rfl
  | cons c t ih =>
    rw [findFence, fenceMatchAt_none h, ih (fun hm => h (List.mem_cons_of_mem _ hm))]
    rfl

theorem splitByFence_plain {f : Nat} {s : List Char} (h : '`' ∉ s) :
    splitByFence f s = [s] := by
  cases f with
  | zero => rfl
  | succ f => rw [splitByFence, findFence_none h]

theorem listRepOne_none {s : List Char} (h : ∀ c ∈ s, plainCh c = true) :
    listRepOne s = none := by
  rw [listRepOne]
  dsimp only
  cases hr : s.dropWhile isWs with
  | nil => rfl
  | cons c r₂ =>
    have hcs : c ∈ s := (List.dropWhile_sublist isWs).subset (by rw [hr]; simp)
    have hp := plain_parts (h c hcs)
    simp [hp.1, hp.2, List.takeWhile_cons]

theorem listRunMatchAt_none {s : List Char} (h : ∀ c ∈ s, plainCh c = true) :
    listRunMatchAt s = none := by
  rw [listRunMatchAt, listRepOne_none h]

theorem findListRun_none {s : List Char} (h : ∀ c ∈ s, plainCh c = true) :
    ∀ ls, findListRun ls s = none := by
  induction s with
  | nil =>
    intro ls
    rw [findListRun]
    cases ls <;> rfl
  | cons c t ih =>
    intro ls
    rw [findListRun, listRunMatchAt_none h, ite_self,
      ih (fun x hx => h x (List.mem_cons_of_mem _ hx))]
    rfl

theorem splitByList_plain {f : Nat} {ls : Bool} {s : List Char}
    (h : ∀ c ∈ s, plainCh c = true) : splitByList f ls s = [s] := by
  cases f with
  | zero => rfl
  | succ f => rw [splitByList, findListRun_none h ls]

theorem jsTestFence_plain {s : List Char} (h : '`' ∉ s) :
    jsTestFence 0 s = (false, 0) := by
  rw [jsTestFence, if_neg (by omega), List.drop_zero, findFence_none h]

theorem jsTestListAux_none : ∀ {s : List Char}, (∀ c ∈ s, plainCh c = true) →
    ∀ li p ls, jsTestListAux li p ls s = none := by
  intro s
  induction s with
  | nil =>
    intro _ li p ls
    rw [jsTestListAux, show listRunMatchAt ([] : List Char) = none from rfl, ite_self]
  | cons c t ih =>
    intro h li p ls
    rw [jsTestListAux, listRunMatchAt_none h, ite_self]
    exact ih (fun x hx => h x (List.mem_cons_of_mem _ hx)) li (p + 1) (c = '\n' || c = '\r')

theorem jsTestList_plain {s : List Char} (h : ∀ c ∈ s, plainCh c = true) :
    jsTestList 0 s = (false, 0) := by
  rw [jsTestList, if_neg (by omega), jsTestListAux_none h 0 0 true]

theorem segmentsOf_plain {s : List Char} (h : ∀ c ∈ s, plainCh c = true) :
    segmentsOf s = [⟨s, .NORMAL⟩] := by
  have htick : '`' ∉ s := plain_not_mem h (by decide)
  rw [segmentsOf, splitByFence_plain htick]
  simp only [List.map_cons, List.map_nil, splitByList_plain h, List.flatten_cons,
    List.flatten_nil, List.append_nil]
  rw [tagParts]
  simp [jsTestFence_plain htick, jsTestList_plain h, tagParts]

/-! ## The paragraph-unwrap rule never fires on paragraph-wrapped plain
text -/

theorem suffix_append_cases {v x y : List Char} (h : v <:+ x ++ y) :
    v <:+ y ∨ ∃ z, z <:+ x ∧ v = z ++ y := by
  induction x with
  | nil => left; simpa using h
  | cons c x' ih =>
    rw [List.cons_append] at h
    rcases List.suffix_cons_iff.mp h with h₁ | h₂
    · right
      exact ⟨c :: x', List.suffix_refl _, by rw [h₁, List.cons_append]⟩
    · rcases ih h₂ with h₃ | ⟨z, hz, hv⟩
      · left; exact h₃
      · right; exact ⟨z, hz.trans (List.suffix_cons c x'), hv⟩

theorem noPO_nil : noPO [] := by
  intro v hv
  rw [List.suffix_nil.mp hv]
  rfl

theorem noPO_cons {c : Char} {t : List Char} (hc : c ≠ '<') (ht : noPO t) :
    noPO (c :: t) := by
  intro v hv
  rcases List.suffix_cons_iff.mp hv with rfl | hv'
  · exact startsW_false_head (fun hh => hc hh.symm)
  · exact ht v hv'

theorem noPO_plain_append {x rest : List Char} (hx : '<' ∉ x) (hrest : noPO rest) :
    noPO (x ++ rest) := by
  induction x with
  | nil => simpa using hrest
  | cons c x' ih =>
    rw [List.cons_append]
    exact noPO_cons (fun hcc => hx (by simp [hcc]))
      (ih (fun hm => hx (List.mem_cons_of_mem _ hm)))

theorem noPO_plain {x : List Char} (hx : '<' ∉ x) : noPO x :=
  List.append_nil x ▸ noPO_plain_append hx noPO_nil

theorem startsW_po_slash {w : List Char} :
    startsW "<p><".data ('<' :: '/' :: w) = false := by
  have hd : decide ('p' = '/') = false := by decide
  simp [startsW, hd]

theorem startsW_po_fourth {a : Char} {w : List Char} (ha : a ≠ '<') :
    startsW "<p><".data ('<' :: 'p' :: '>' :: a :: w) = false := by
  have hd : decide ('<' = a) = false := decide_eq_false (fun hh => ha hh.symm)
  simp [startsW, hd]

theorem suffix_p_open {z : List Char} (h : z <:+ "<p>".data) :
    z = "<p>".data ∨ z = "p>".data ∨ z = ">".data ∨ z = [] := by
  rcases List.suffix_cons_iff.mp h with rfl | h
  · left; rfl
  rcases List.suffix_cons_iff.mp h with rfl | h
  · right; left; rfl
  rcases List.suffix_cons_iff.mp h with rfl | h
  · right; right; left; rfl
  · right; right; right; exact List.suffix_nil.mp h

theorem suffix_p_close {z : List Char} (h : z <:+ "</p>".data) :
    z = "</p>".data ∨ z = "/p>".data ∨ z = "p>".data ∨ z = ">".data ∨ z = [] := by
  rcases List.suffix_cons_iff.mp h with rfl | h
  · left; rfl
  rcases List.suffix_cons_iff.mp h with rfl | h
  · right; left; rfl
  rcases List.suffix_cons_iff.mp h with rfl | h
  · right; right; left; rfl
  rcases List.suffix_cons_iff.mp h with rfl | h
  · right; right; right; left; rfl
  · right; right; right; right; exact List.suffix_nil.mp h

theorem noPO_core {A B rest : List Char} (hA : A ≠ []) (hAm : '<' ∉ A)
    (hBm : '<' ∉ B) (hrest : noPO rest) :
    noPO ("<p>".data ++ (A ++ ("</p>".data ++ (B ++ rest)))) := by
  have hBrest : noPO (B ++ rest) := noPO_plain_append hBm hrest
  have hclose : noPO ("</p>".data ++ (B ++ rest)) := by
    intro v hv
    rcases suffix_append_cases hv with hv' | ⟨z, hz, rfl⟩
    · exact hBrest v hv'
    · rcases suffix_p_close hz with rfl | rfl | rfl | rfl | rfl
      · exact startsW_po_slash
      · exact startsW_false_head (by decide)
      · exact startsW_false_head (by decide)
      · exact startsW_false_head (by decide)
      · exact hBrest _ (List.suffix_refl _)
  have hmid : noPO (A ++ ("</p>".data ++ (B ++ rest))) :=
    noPO_plain_append hAm hclose
  intro v hv
  rcases suffix_append_cases hv with hv' | ⟨z, hz, rfl⟩
  · exact hmid v hv'
  · rcases suffix_p_open hz with rfl | rfl | rfl | rfl
    · cases A with
      | nil => exact absurd rfl hA
      | cons a A' =>
        have ham : a ≠ '<' := fun hh => hAm (by simp [hh])
        exact startsW_po_fourth ham
    · exact startsW_false_head (by decide)
    · exact startsW_false_head (by decide)
    · exact hmid _ (List.suffix_refl _)

theorem mem_core {line : List Char} {t : Nat} {x : Char}
    (hx : x ∈ (if t ≥ 2 then
      "<p>".data ++ line.take t ++ "</p>".data ++ line.drop t else line)) :
    x ∈ line ∨ x = '<' ∨ x = 'p' ∨ x = '>' ∨ x = '/' := by
  split at hx
  · simp only [List.mem_append] at hx
    rcases hx with ((hx | hx) | hx) | hx
    · have hx' : x ∈ ['<', 'p', '>'] := hx
      simp at hx'
      tauto
    · exact Or.inl ((List.take_sublist _ _).subset hx)
    · have hx' : x ∈ ['<', '/', 'p', '>'] := hx
      simp at hx'
      tauto
    · exact Or.inl ((List.drop_sublist _ _).subset hx)
  · exact Or.inl hx

theorem mem_tags_lift {c : Char} {u : List Char}
    (hh : c = '<' ∨ c = 'p' ∨ c = '>' ∨ c = '/') :
    c ∈ u ∨ c = '<' ∨ c = 'p' ∨ c = '>' ∨ c = '/' ∨ c = '\n' :=
  Or.inr (hh.imp id (fun h2 => h2.imp id (fun h3 => h3.imp id Or.inl)))

set_option maxHeartbeats 1000000 in
theorem mem_wrapLines : ∀ (f : Nat) (u : List Char) (c : Char), c ∈ wrapLines f u →
    c ∈ u ∨ c = '<' ∨ c = 'p' ∨ c = '>' ∨ c = '/' ∨ c = '\n' := by
  intro f
  induction f with
  | zero => exact fun u c h => Or.inl h
  | succ f ih =>
    intro u c h
    cases u with
    | nil =>
      rw [wrapLines] at h
      simp at h
    | cons c₀ t₀ =>
      rw [wrapLines] at h
      dsimp only at h
      have hline : ∀ x, x ∈ (c₀ :: t₀).takeWhile (fun d => d ≠ '\n') → x ∈ c₀ :: t₀ :=
        fun x hx => (List.takeWhile_sublist _).subset hx
      split at h
      · rcases mem_core h with hh | hh
        · exact Or.inl (hline c hh)
        · exact mem_tags_lift hh
      · rename_i d r heq
        have hr : ∀ x, x ∈ r → x ∈ c₀ :: t₀ := fun x hx =>
          (List.drop_sublist _ _).subset (heq ▸ List.mem_cons_of_mem d hx)
        split at h
        · rw [List.mem_append] at h
          rcases h with h | h
          · rcases mem_core h with hh | hh
            · exact Or.inl (hline c hh)
            · exact mem_tags_lift hh
          · rcases ih r c h with hh | hh
            · exact Or.inl (hr c hh)
            · exact Or.inr hh
        · rw [List.mem_append] at h
          rcases h with h | h
          · rcases mem_core h with hh | hh
            · exact Or.inl (hline c hh)
            · exact mem_tags_lift hh
          · rcases List.mem_cons.mp h with rfl | h
            · exact Or.inr (Or.inr (Or.inr (Or.inr (Or.inr rfl))))
            · rcases ih r c h with hh | hh
              · exact Or.inl (hr c hh)
              · exact Or.inr hh

set_option maxHeartbeats 1000000 in
theorem wrapLines_noPO : ∀ (f : Nat) (u : List Char), '<' ∉ u →
    noPO (wrapLines f u) := by
  intro f
  induction f with
  | zero => exact fun u hu => noPO_plain hu
  | succ f ih =>
    intro u hu
    cases u with
    | nil =>
      rw [wrapLines]
      exact noPO_nil
    | cons c₀ t₀ =>
      rw [wrapLines]
      dsimp only
      set L := (c₀ :: t₀).takeWhile (fun d => d ≠ '\n') with hLdef
      have hlm : '<' ∉ L := fun hm => hu ((List.takeWhile_sublist _).subset hm)
      have hA : rstripLen L ≥ 2 → L.take (rstripLen L) ≠ [] := by
        intro ht hnil
        have h1 := rstripLen_le L
        have h2 := congrArg List.length hnil
        rw [List.length_take] at h2
        simp only [List.length_nil] at h2
        omega
      have hAm : '<' ∉ L.take (rstripLen L) :=
        fun hm => hlm ((List.take_sublist _ _).subset hm)
      have hBm : '<' ∉ L.drop (rstripLen L) :=
        fun hm => hlm ((List.drop_sublist _ _).subset hm)
      cases hdrop : (c₀ :: t₀).drop L.length with
      | nil =>
        dsimp only
        by_cases ht : rstripLen L ≥ 2
        · rw [if_pos ht]
          have hcore := noPO_core (hA ht) hAm hBm noPO_nil
          rw [List.append_nil] at hcore
          simpa only [List.append_assoc] using hcore
        · rw [if_neg ht]
          exact noPO_plain hlm
      | cons d r =>
        have hrm : '<' ∉ r := fun hm =>
          hu ((List.drop_sublist _ _).subset (hdrop ▸ List.mem_cons_of_mem d hm))
        have hrest : noPO (wrapLines f r) := ih r hrm
        dsimp only
        by_cases hfull : rstripLen L ≥ 2 ∧ rstripLen L = L.length
        · rw [if_pos hfull, if_pos hfull.1]
          have hcore := noPO_core (hA hfull.1) hAm hBm hrest
          simpa only [List.append_assoc] using hcore
        · rw [if_neg hfull]
          by_cases ht : rstripLen L ≥ 2
          · rw [if_pos ht]
            have hcore := noPO_core (hA ht) hAm hBm
              (@noPO_cons '\n' (wrapLines f r) (by decide) hrest)
            simpa only [List.append_assoc] using hcore
          · rw [if_neg ht]
            exact noPO_plain_append hlm (@noPO_cons '\n' (wrapLines f r) (by decide) hrest)

/-! ## Rendering delimiter-free text: the paragraph rule is the only rule
that acts -/

theorem mem_jsTrim {c : Char} {s : List Char} (h : c ∈ jsTrim s) : c ∈ s := by
  rw [jsTrim, List.mem_reverse] at h
  have h2 := (List.dropWhile_sublist _).subset h
  rw [List.mem_reverse] at h2
  exact (List.dropWhile_sublist _).subset h2

theorem not_mem_wrapAll {x : Char} {u : List Char} (h1 : x ∉ u) (h2 : x ≠ '<')
    (h3 : x ≠ 'p') (h4 : x ≠ '>') (h5 : x ≠ '/') (h6 : x ≠ '\n') :
    x ∉ wrapAll u := by
  intro hm
  rcases mem_wrapLines (u.length + 1) u x hm with hh | hh | hh | hh | hh | hh
  · exact h1 hh
  · exact h2 hh
  · exact h3 hh
  · exact h4 hh
  · exact h5 hh
  · exact h6 hh

theorem unwrapM_none {ls : Bool} {s : List Char}
    (h : startsW "<p><".data s = false) : unwrapM ls s = none := by
  rw [unwrapM, if_pos (by simp [h])]

theorem runRule_id {m : Matcher} {s : List Char}
    (h : ∀ (ls : Bool) (k : Nat), m ls (s.drop k) = none) : runRule m s = s :=
  scanRepl_id h

theorem runRule_headerM_id {n : Nat} (hn : 1 ≤ n) {u : List Char} (hH : '#' ∉ u) :
    runRule (headerM n) u = u :=
  runRule_id (fun _ k => headerM_none hn (fun hm => hH ((List.drop_sublist k u).subset hm)))

theorem runRule_fmtM_id {d tO tC : List Char} {x : Char} (hd : d.head? = some x)
    {u : List Char} (hx : x ∉ u) : runRule (fmtM d tO tC) u = u :=
  runRule_id (fun _ k => fmtM_none_of_head hd (fun hm => hx ((List.drop_sublist k u).subset hm)))

theorem applyExternal_id {u : List Char} (h : '[' ∉ u) : applyExternal u = u := by
  rw [applyExternal,
    runRule_id (fun _ k => imgM_none (fun hm => h ((List.drop_sublist k u).subset hm))),
    runRule_id (fun _ k => linkM_none (fun hm => h ((List.drop_sublist k u).subset hm)))]

theorem applyTextFmt_id {u : List Char} (hstar : '*' ∉ u) (htick : '`' ∉ u)
    (hund : '_' ∉ u) (htil : '~' ∉ u) : applyTextFmt u = u := by
  rw [applyTextFmt,
    @runRule_fmtM_id "***".data "<i><b>".data "</b></i>".data '*' rfl u hstar,
    @runRule_fmtM_id "**".data "<b>".data "</b>".data '*' rfl u hstar,
    @runRule_fmtM_id "*".data "<i>".data "</i>".data '*' rfl u hstar,
    @runRule_fmtM_id "`".data "<code>".data "</code>".data '`' rfl u htick,
    @runRule_fmtM_id "__".data "<u>".data "</u>".data '_' rfl u hund,
    @runRule_fmtM_id "~~".data "<s>".data "</s>".data '~' rfl u htil]

theorem render_plain {s : List Char} (h : ∀ c ∈ s, plainCh c = true) :
    render s = wrapAll (jsTrim s) := by
  have hup : ∀ c ∈ jsTrim s, plainCh c = true := fun c hc => h c (mem_jsTrim hc)
  have hH : '#' ∉ jsTrim s := plain_not_mem hup (by decide)
  have hdash : '-' ∉ jsTrim s := plain_not_mem hup (by decide)
  have hbr : '[' ∉ jsTrim s := plain_not_mem hup (by decide)
  have hlt : '<' ∉ jsTrim s := plain_not_mem hup (by decide)
  have hstar : '*' ∉ wrapAll (jsTrim s) := not_mem_wrapAll
    (plain_not_mem hup (by decide)) (by decide) (by decide) (by decide)
    (by decide) (by decide)
  have htick : '`' ∉ wrapAll (jsTrim s) := not_mem_wrapAll
    (plain_not_mem hup (by decide)) (by decide) (by decide) (by decide)
    (by decide) (by decide)
  have hund : '_' ∉ wrapAll (jsTrim s) := not_mem_wrapAll
    (plain_not_mem hup (by decide)) (by decide) (by decide) (by decide)
    (by decide) (by decide)
  have htil : '~' ∉ wrapAll (jsTrim s) := not_mem_wrapAll
    (plain_not_mem hup (by decide)) (by decide) (by decide) (by decide)
    (by decide) (by decide)
  rw [render, segmentsOf_plain h]
  simp only [List.map_cons, List.map_nil, List.flatten_cons, List.flatten_nil,
    List.append_nil]
  rw [renderSeg]
  rw [escapeHtml_id h, markdownRulesApply,
    @runRule_headerM_id 6 (by omega) (jsTrim s) hH,
    @runRule_headerM_id 5 (by omega) (jsTrim s) hH,
    @runRule_headerM_id 4 (by omega) (jsTrim s) hH,
    @runRule_headerM_id 3 (by omega) (jsTrim s) hH,
    @runRule_headerM_id 2 (by omega) (jsTrim s) hH,
    @runRule_headerM_id 1 (by omega) (jsTrim s) hH,
    hrRepl_id hdash, applyExternal_id hbr, para_run_eq_wrapAll,
    show runRule unwrapM (wrapAll (jsTrim s)) = wrapAll (jsTrim s) from
      runRule_id (fun _ k =>
        unwrapM_none (wrapLines_noPO _ (jsTrim s) hlt _ (List.drop_suffix _ _))),
    applyTextFmt_id hstar htick hund htil]

/-! ## The claims -/

/-- C1: corrected.  What holds of the tagging: a segment tagged Block
contains a fenced-code match and a segment tagged List contains a
list-run match.  The claim's stronger statement — that the list-run
split is applied only to provisionally-Normal elements and every
fence-matching element is tagged Block — is refuted by the
counterexample below: the split is applied to every element of the
fence split, fence matches included. -/
theorem claim_C1_segment_tagging {s : List Char} {seg : Seg}
    (h : seg ∈ segmentsOf s) :
    (seg.renderingMode = RenderModes.BLOCK → fenceTestPure seg.innerText = true) ∧
    (seg.renderingMode = RenderModes.LIST → listTestPure seg.innerText = true) :=
  tagParts_sound h

theorem claim_C1_segment_tagging_witness :
    ((⟨"```\nx\n```".data, RenderModes.BLOCK⟩ : Seg) ∈ segmentsOf "```\nx\n```".data) ∧
    fenceTestPure "```\nx\n```".data = true :=
  ⟨by decide,
    (@claim_C1_segment_tagging "```\nx\n```".data
      ⟨"```\nx\n```".data, RenderModes.BLOCK⟩ (by decide)).1 rfl⟩

/-- C1 counterexample: the element `"```\n- a\n```"` of the fence split
matches the fence pattern, yet the list-run split is applied to it and
cuts it into three pieces, so no segment of the input is tagged Block at
all — refuting both that fence-matching elements are tagged Block and
that the list split runs only on provisionally-Normal elements. -/
theorem claim_C1_counterexample :
    segmentsOf "```\n- a\n```".data =
      [⟨[], RenderModes.NORMAL⟩, ⟨"```\n".data, RenderModes.NORMAL⟩,
        ⟨"- a\n".data, RenderModes.LIST⟩, ⟨"```".data, RenderModes.NORMAL⟩,
        ⟨[], RenderModes.NORMAL⟩] ∧
    fenceTestPure "```\n- a\n```".data = true ∧
    (segmentsOf "```\n- a\n```".data).all
      (fun seg => decide (seg.renderingMode ≠ RenderModes.BLOCK)) = true :=
  ⟨rfl, rfl, rfl⟩

/-- C2: confirmed.  Concatenating the segment texts of the segmenter, in
order, reproduces the raw input exactly, for every input. -/
theorem claim_C2_roundtrip (s : List Char) :
    (((segmentsOf s).map (fun seg => seg.innerText)).flatten) = s :=
  segmentsOf_texts_flatten s

/-- C3: confirmed.  `render "<script>"` contains the escaped text and no
raw `<script`; in general no raw `<`, `>`, `"`, `'` survives
`escapeHtml`, and every `&` in its output opens one of the character
references the escaper itself writes (`ampOkB`), so no input ampersand
survives unescaped. -/
theorem claim_C3_escaping :
    containsSeq "&lt;script&gt;".data (render "<script>".data) = true ∧
    containsSeq "<script".data (render "<script>".data) = false ∧
    (∀ s : List Char, '<' ∉ escapeHtml s ∧ '>' ∉ escapeHtml s ∧
      '"' ∉ escapeHtml s ∧ '\'' ∉ escapeHtml s ∧ ampOkB (escapeHtml s) = true) :=
  ⟨by decide, by decide, fun s =>
    ⟨(escape_no_raw s).1, (escape_no_raw s).2.1, (escape_no_raw s).2.2.1,
      (escape_no_raw s).2.2.2, ampOk_escapeHtml s⟩⟩

/-- C4: confirmed.  A Block-mode segment is rendered by the single block
rule alone: the fence delimiters are stripped and the interior is kept
verbatim (escaped but otherwise unmodified) inside a preformatted-block
tag; `*not bold*` inside a fence stays literal. -/
theorem claim_C4_block_verbatim {body : List Char} (htick : '`' ∉ body)
    (hbs : '\\' ∉ body) :
    renderSeg RenderModes.BLOCK ("```\n".data ++ body ++ "```".data) =
      "<pre>\n".data ++ escapeHtml body ++ "</pre>".data ∧
    render "```\n*not bold*\n```".data = "<pre>\n*not bold*\n</pre>".data :=
  ⟨renderSeg_block_verbatim htick hbs, by rfl⟩

theorem claim_C4_block_verbatim_witness :
    ('`' ∉ "*not bold*\n".data ∧ '\\' ∉ "*not bold*\n".data) ∧
    (renderSeg RenderModes.BLOCK ("```\n".data ++ "*not bold*\n".data ++ "```".data) =
      "<pre>\n".data ++ escapeHtml "*not bold*\n".data ++ "</pre>".data ∧
    render "```\n*not bold*\n```".data = "<pre>\n*not bold*\n</pre>".data) :=
  ⟨⟨by decide, by decide⟩,
    @claim_C4_block_verbatim "*not bold*\n".data (by decide) (by decide)⟩

/-- C5: confirmed.  `escapeHtml` is the five character-reference
replacements in source order, ampersand first, followed by the backslash
pass; the backslash pass turns every backslash-plus-non-newline pair
into the numeric reference of the hidden character's code point, and the
hidden character is then never matched by a later rule (the escaped
asterisks below are not italicised).  Totality and determinism hold
because `escapeHtml` is a Lean function. -/
theorem claim_C5_escape_pipeline :
    (∀ s : List Char, escapeHtml s =
      replBsl (replCh '\'' "&#039;".data (replCh '"' "&quot;".data
        (replCh '>' "&gt;".data (replCh '<' "&lt;".data
          (replCh '&' "&amp;".data s)))))) ∧
    (∀ (c : Char) (t : List Char), c ≠ '\n' →
      replBsl ('\\' :: c :: t) = ('&' :: '#' :: decDigits c.toNat) ++ ';' :: replBsl t) ∧
    render "\\*not italic\\*".data = "<p>&#42;not italic&#42;</p>".data :=
  ⟨fun _ => rfl, fun c t hc => by rw [replBsl, if_pos (by simp [hc])], by rfl⟩

theorem claim_C5_escape_pipeline_witness :
    ('*' : Char) ≠ '\n' ∧
    replBsl ('\\' :: '*' :: []) = ('&' :: '#' :: decDigits '*'.toNat) ++ ';' :: replBsl [] :=
  ⟨by decide, claim_C5_escape_pipeline.2.1 '*' [] (by decide)⟩

/-- C6: corrected.  What holds: the List-mode wrapper tests the escaped
and trimmed segment text (`html`), not the original pre-escape text, and
the ordered-marker pattern requires whitespace before the marker and no
line terminator (`\n` or `\r`) between the marker's dot and the end of
the string — so only a marker on the final line, preceded by whitespace,
selects the ordered container.  `render "1. a\n2. b"` is still an
ordered list, but a numeric marker on an earlier line (counterexample
below) is not enough, refuting the claim's "any line"; a carriage
return after the marker's line likewise blocks the ordered container. -/
theorem claim_C6_list_wrap :
    (∀ text : List Char, renderSeg RenderModes.LIST text =
      (if ordTest (jsTrim (escapeHtml text)) then
        "<ol>".data ++ listRulesApply (jsTrim (escapeHtml text)) ++ "</ol>".data
      else
        "<ul>".data ++ listRulesApply (jsTrim (escapeHtml text)) ++ "</ul>".data)) ∧
    render "1. a\n2. b".data = "<ol><li>a</li>\n<li>b</li></ol>".data ∧
    render "1. a".data = "<ul><li>a</li></ul>".data ∧
    render "- x\n 1. a\rb".data = "<ul><li>x</li>\n<li>a\rb</li></ul>".data :=
  ⟨fun _ => rfl, by rfl, by rfl, by rfl⟩

/-- C6 counterexample: `"2. a\n- b"` has a decimal-number-plus-dot marker
on its first line, yet the fragment is wrapped in an unordered-list
container, because the ordered test only matches a marker whose line
runs to the end of the string. -/
theorem claim_C6_counterexample :
    render "2. a\n- b".data = "<ul><li>a</li>\n<li>b</li></ul>".data ∧
    containsSeq "<ol>".data (render "2. a\n- b".data) = false :=
  ⟨by rfl, by decide⟩

/-- C7: corrected.  On delimiter-free input, `render` is the trimmed
input rewritten line by line (`wrapAll`): a line is wrapped in exactly
one paragraph tag when its content up to the last non-whitespace
character is at least two characters long (trailing whitespace stays
outside the tag, and the following newline is absorbed exactly when the
line has no trailing whitespace); shorter lines — in particular any
non-empty single-character line, refuting the claim — are left
unwrapped. -/
theorem claim_C7_paragraphs {s : List Char} (h : ∀ c ∈ s, plainCh c = true) :
    render s = wrapAll (jsTrim s) :=
  render_plain h

theorem claim_C7_paragraphs_witness :
    (∀ c ∈ "hello, world\nhi\nok then".data, plainCh c = true) ∧
    render "hello, world\nhi\nok then".data =
      wrapAll (jsTrim "hello, world\nhi\nok then".data) :=
  ⟨by decide, claim_C7_paragraphs (by decide)⟩

/-- C7 counterexample: `"a"` is a delimiter-free input consisting of one
non-empty line, yet `render` leaves it unwrapped — the paragraph rule
`([^\n]+[\S]+)\n?` needs at least two characters. -/
theorem claim_C7_counterexample :
    render "a".data = "a".data ∧
    containsSeq "<p>".data (render "a".data) = false :=
  ⟨by rfl, by decide⟩

/-- C8: confirmed.  `render "# Title"` is a single level-1 header
fragment with the escaped title and no enclosing paragraph tag: the
paragraph-unwrap rule strips the paragraph tag the paragraph rule had
put around the freshly produced header tag. -/
theorem claim_C8_header :
    render "# Title".data = "<h1>Title</h1>".data ∧
    containsSeq "<p>".data (render "# Title".data) = false :=
  ⟨by rfl, by decide⟩

/-- C9: corrected.  The thematic-break rule `/^---\n/g` lacks the `m`
flag, so it fires only on a leading `---` line of the segment text: a
`---` line at the start (followed by a newline) becomes `<hr>`, and a
string not starting with `---\n` is left unchanged — so a
three-hyphen line in the middle of a Normal segment (counterexample
below) is not replaced, refuting the claim's "every line". -/
theorem claim_C9_thematic_break :
    (∀ s : List Char, hrRepl ("---\n".data ++ s) = "<hr>".data ++ s) ∧
    (∀ s : List Char, startsW "---\n".data s = false → hrRepl s = s) ∧
    render "---\nok".data = "<p><hr>ok</p>".data :=
  ⟨fun s => by
      rw [hrRepl, if_pos (startsW_append "---\n".data s),
        show ("---\n".data ++ s).drop 4 = s from List.drop_left "---\n".data s],
    fun s h => by rw [hrRepl, if_neg (by simp [h])],
    by rfl⟩

theorem claim_C9_thematic_break_witness :
    startsW "---\n".data "x---\n".data = false ∧
    hrRepl "x---\n".data = "x---\n".data :=
  ⟨by decide, claim_C9_thematic_break.2.1 "x---\n".data (by decide)⟩

/-- C9 counterexample: in `"b\n---\nok"` the second line consists solely
of three hyphens, yet no horizontal-rule tag is produced — the line is
paragraph-wrapped instead. -/
theorem claim_C9_counterexample :
    render "b\n---\nok".data = "b\n<p>---</p><p>ok</p>".data ∧
    containsSeq "<hr>".data (render "b\n---\nok".data) = false :=
  ⟨by rfl, by decide⟩

/-- C10: confirmed.  The italic rule is greedy: on a line holding two
single-asterisk pairs it produces one italic element spanning from the
first delimiter to the last (see the concrete render of `*a* x *b*`);
and no text-format span crosses a newline, since every rule's class
`[ \t\r\S]` excludes the newline — the whole format pass distributes
over `\n`. -/
theorem claim_C10_italic :
    (∀ u v w : List Char, (∀ c ∈ u ++ v ++ w, isFmtCl c = true) →
      runRule (fmtM "*".data "<i>".data "</i>".data)
        ('*' :: (u ++ '*' :: v ++ '*' :: w ++ ['*'])) =
        "<i>".data ++ (u ++ '*' :: v ++ '*' :: w) ++ "</i>".data) ∧
    (∀ a z : List Char,
      applyTextFmt (a ++ '\n' :: z) = applyTextFmt a ++ '\n' :: applyTextFmt z) ∧
    render "*a* x *b*".data = "<p><i>a* x *b</i></p>".data :=
  ⟨fun _ _ _ h => italic_run_greedy h, applyTextFmt_nl, by rfl⟩

theorem claim_C10_italic_witness :
    (∀ c ∈ "a".data ++ " x ".data ++ "b".data, isFmtCl c = true) ∧
    runRule (fmtM "*".data "<i>".data "</i>".data)
      ('*' :: ("a".data ++ '*' :: " x ".data ++ '*' :: "b".data ++ ['*'])) =
      "<i>".data ++ ("a".data ++ '*' :: " x ".data ++ '*' :: "b".data) ++ "</i>".data :=
  ⟨by decide, claim_C10_italic.1 "a".data " x ".data "b".data (by decide)⟩
